import Mathlib

/-!
Verification of the pathfind repository: a visibility-graph based
shortest-path finder over a set of nested polygons.

The pathfinder layer (pathfinder.go in its two variants, index.go,
point.go) is embedded directly from the source.  The low-level polygon
primitive library (internal/poly) and the geometry vector library are
external collaborators of this core (spec section 6); they are modelled
as abstract operation records whose fields carry the collaborator
interface, so every theorem quantifies over their behaviour.  The
A-star search is likewise an external collaborator and enters as an
abstract search function parameter.

Numeric model: coordinates are rationals.  Go float64/float32
arithmetic is idealized as exact rational arithmetic; the coordinate
rounding performed by v2p (math.Round) is embedded exactly.
-/

namespace Pathfind

/-- A 2D point with double precision coordinates (point.go). -/
structure Point where
  x : ℚ
  y : ℚ
deriving DecidableEq

instance : Inhabited Point := ⟨⟨0, 0⟩⟩

/-- Point addition (point.go, Point.Add). -/
def Point.add (p q : Point) : Point := ⟨p.x + q.x, p.y + q.y⟩

/-- Point subtraction (point.go, Point.Sub). -/
def Point.sub (p q : Point) : Point := ⟨p.x - q.x, p.y - q.y⟩

/-- A 2D vector of the external geom library (geom.Vec2). -/
structure Vec2 where
  x : ℚ
  y : ℚ
deriving DecidableEq

instance : Inhabited Vec2 := ⟨⟨0, 0⟩⟩

/-- Modelled from the spec: vector addition of the external geom
library (geom.Vec2.Add), componentwise. -/
def Vec2.add (v w : Vec2) : Vec2 := ⟨v.x + w.x, v.y + w.y⟩

/-- Modelled from the spec: vector subtraction of the external geom
library (geom.Vec2.Sub), componentwise. -/
def Vec2.sub (v w : Vec2) : Vec2 := ⟨v.x - w.x, v.y - w.y⟩

/-- Modelled from the spec: scalar multiplication of the external geom
library (geom.Vec2.Mul). -/
def Vec2.smul (v : Vec2) (s : ℚ) : Vec2 := ⟨v.x * s, v.y * s⟩

/-- A line segment of the external poly library (poly.LineSeg). -/
structure LineSeg where
  A : Vec2
  B : Vec2

/-- Modelled from the spec: the midpoint of a segment
(poly.LineSeg.Middle, the spec calls it the segment's midpoint). -/
def LineSeg.middle (s : LineSeg) : Vec2 :=
  ⟨(s.A.x + s.B.x) / 2, (s.A.y + s.B.y) / 2⟩

/-- Modelled from the spec: the operations the core borrows from the
external geometry library whose algorithms are outside this repository:
vector normalization, vector length, and tolerance-based near
equality.  They are abstract fields, so theorems hold for every
behaviour of the collaborator. -/
structure GeomOps where
  norm : Vec2 → Vec2
  len : Vec2 → ℚ
  nearEq : Vec2 → Vec2 → Bool

/-- Modelled from the spec: a polygon of the external poly library.
Its vertex list is concrete data; the containment test (with its
boundary-inclusiveness flag), per-vertex concavity test, segment
crossing test and orientation are the collaborator interface of spec
section 6 and are abstract fields. -/
structure Polygon where
  verts : List Vec2
  containsB : Vec2 → Bool → Bool
  isConcaveAt : Nat → Bool
  crossedBy : LineSeg → Bool
  orientation : ℚ

/-- Modelled from the spec: a polygon set of the external poly
library: the ordered list of polygons plus the walkable-region
containment and closest-boundary-point queries of spec section 6. -/
structure PolygonSet where
  polys : List Polygon
  containsSet : Vec2 → Bool
  closestPt : Vec2 → Vec2

/-- Conversion from Point to Vec2 (point conversion file, p2v). -/
def p2v (p : Point) : Vec2 := ⟨p.x, p.y⟩

/-- Rounding half away from zero, the behaviour of Go math.Round. -/
def goRound (q : ℚ) : ℚ :=
  if 0 ≤ q then (⌊q + 1/2⌋ : ℤ) else (-⌊-q + 1/2⌋ : ℤ)

/-- Conversion from Vec2 to Point with coordinate rounding
(point conversion file, v2p: X and Y coordinates are rounded). -/
def v2p (v : Vec2) : Point := ⟨goRound v.x, goRound v.y⟩

/-- Modelled from the spec: index wrap-around of the external poly
library (poly.Polygon.WrapIndex, the wrapIndex collaborator of spec
section 6): reduce an integer index modulo the vertex count. -/
def wrapIndex (n : Nat) (i : Int) : Nat :=
  (((i % (n : Int)) + n) % (n : Int)).toNat

/-- First vertex of polygon i of the set, as accessed by isHole via
ps[i][0]. -/
def firstVert (ps : PolygonSet) (i : Nat) : Vec2 :=
  match ps.polys.get? i with
  | some p => p.verts.getD 0 ⟨0, 0⟩
  | none => ⟨0, 0⟩

/-- Containment level of a point: the count of polygons whose
boundary-inclusive containment test holds (pathfinder.go,
containmentLevel). -/
def containmentLevel (ps : PolygonSet) (pt : Point) : Nat :=
  ps.polys.foldl (fun level p => if p.containsB (p2v pt) true then level + 1 else level) 0

/-- Hole role of polygon i: toggle a flag once for every other polygon
whose boundary-exclusive containment test holds on polygon i's first
vertex (pathfinder.go, isHole; note the test uses the false flag). -/
def isHole (ps : PolygonSet) (i : Nat) : Bool :=
  (ps.polys.enum).foldl
    (fun hole jp =>
      if jp.1 ≠ i ∧ jp.2.containsB (firstVert ps i) false then !hole else hole)
    false

/-- Vertex type selector (pathfinder.go, vertexType). -/
inductive vertexType where
  | concave
  | convex
deriving DecidableEq

/-- Vertices of a polygon of the requested type, selected by the
collaborator's concavity test (pathfinder.go, verticesOfType). -/
def verticesOfType (p : Polygon) (t : vertexType) : List Point :=
  (p.verts.enum).foldl
    (fun vs iv =>
      if (t = .concave ∧ p.isConcaveAt iv.1) ∨ (t = .convex ∧ ¬ p.isConcaveAt iv.1)
      then vs ++ [v2p iv.2] else vs)
    []

/-- Reflex vertex extraction: concave vertices of area polygons and
convex vertices of hole polygons, concatenated in polygon order
(pathfinder.go, concaveVertices). -/
def concaveVertices (ps : PolygonSet) : List Point :=
  (ps.polys.enum).foldl
    (fun vs ip =>
      vs ++ verticesOfType ip.2 (if isHole ps ip.1 then .convex else .concave))
    []

/-- Modelled from the spec: the visibility graph data structure of the
repository's graph file (absent from the sources): a directed
adjacency structure keyed by points.  Go stores it as a map from point
to adjacency slice; it is modelled extensionally as a total adjacency
function, the empty list standing for an absent key. -/
abbrev graph := Point → List Point

/-- Modelled from the spec: the empty graph. -/
def emptyGraph : graph := fun _ => []

/-- Modelled from the spec: graph.link appends b to the adjacency
slice of a (the in-source tests pin this append-in-iteration-order
behaviour through their expected adjacency lists). -/
def link (g : graph) (a b : Point) : graph :=
  fun x => if x = a then g x ++ [b] else g x

/-- Line-of-sight test (pathfinder.go, inLineOfSight): scan the
polygons, failing at the first one crossed by the segment, and
otherwise test the segment midpoint for walkable containment. -/
def inLineOfSightAux (ps : PolygonSet) (seg : LineSeg) : List Polygon → Bool
  | [] => ps.containsSet seg.middle
  | p :: rest => if p.crossedBy seg then false else inLineOfSightAux ps seg rest

/-- Line-of-sight entry point (pathfinder.go, inLineOfSight). -/
def inLineOfSight (ps : PolygonSet) (s e : Vec2) : Bool :=
  inLineOfSightAux ps ⟨s, e⟩ ps.polys

/-- Full visibility graph build over a point list: all ordered pairs
of distinct indices, linked when in line of sight (pathfinder.go,
visibilityGraph). -/
def visibilityGraph (ps : PolygonSet) (points : List Point) : graph :=
  (points.enum).foldl
    (fun vis ia =>
      (points.enum).foldl
        (fun vis jb =>
          if ia.1 ≠ jb.1 ∧ inLineOfSight ps (p2v ia.2) (p2v jb.2) = true
          then link vis ia.2 jb.2 else vis)
        vis)
    emptyGraph

/-- The 8 probe directions of ensureInside, in Go loop order: dx outer
from -1 to 1, dy inner from -1 to 1, skipping the centre. -/
def probeOffsets : List (Int × Int) :=
  [(-1, -1), (-1, 0), (-1, 1), (0, -1), (0, 1), (1, -1), (1, 0), (1, 1)]

/-- Boundary-ambiguity nudge (pathfinder.go, ensureInside): keep a
contained point; otherwise accept the first of the 8 margin-offset
probes that the containment test accepts; if none, keep the point. -/
def ensureInside (m : ℚ) (ps : PolygonSet) (pt : Point) : Point :=
  if ps.containsSet (p2v pt) then pt
  else
    match probeOffsets.findSome? (fun d =>
      let npt : Point := pt.add ⟨(d.1 : ℚ) * m, (d.2 : ℚ) * m⟩
      if ps.containsSet (p2v npt) then some npt else none) with
    | some npt => npt
    | none => pt

/-- Destination clamping as performed by Path: a destination outside
the polygon set is replaced by the rounded closest boundary point,
nudged inside if needed (pathfinder.go, Path, clamping block). -/
def clampDest (m : ℚ) (ps : PolygonSet) (dest : Point) : Point :=
  if ps.containsSet (p2v dest) then dest
  else ensureInside m ps (v2p (ps.closestPt (p2v dest)))

/-- Modelled from the spec: the external A-star search collaborator
(spec section 6), an abstract function from a graph and two endpoints
to an optional path; the fixed Euclidean cost pair of the call site is
subsumed in the abstraction. -/
def SearchFun := graph → Point → Point → Option (List Point)

/-- Boolean check that a list is a path of graph g from s to d:
nonempty, starting at s, ending at d, each step along a graph edge. -/
def chainB (g : graph) : List Point → Bool
  | [] => true
  | [_] => true
  | a :: b :: rest => (b ∈ g a : Bool) && chainB g (b :: rest)

/-- Boolean path-in-graph predicate used to state search validity. -/
def pathInB (g : graph) (s d : Point) (l : List Point) : Bool :=
  (l.head? == some s) && (l.getLast? == some d) && chainB g l

/-- Modelled from the spec: a valid search collaborator only returns
paths of the given graph from the given start to the given goal. -/
def ValidSearch (search : SearchFun) : Prop :=
  ∀ g s d l, search g s d = some l → pathInB g s d l = true

/-- Offsetting map applied to the raw search path: replace every
element strictly between the first and the last (pathfinder.go, Path,
the loop for i from 1 to len-2). -/
def mapMiddle (f : Point → Point) (l : List Point) : List Point :=
  l.enum.map (fun ix => if 0 < ix.1 ∧ ix.1 + 1 < l.length then f ix.2 else ix.2)

namespace V1

/-- The boundary offset margin of the first source variant
(pathfinder.go, const margin = 0.001). -/
def margin : ℚ := 1/1000

/-- Offset candidate at one vertex (pathfinder.go variant of
offsetFromBoundary, loop body): bisector of the two incident edge unit
directions, falling back to the perpendicular of the first edge when
the bisector has zero length, scaled to the margin; the displaced
vertex is accepted if the walkable containment test holds, and the
accepted point is converted back with rounding (v2p). -/
def offsetCandidate (geom : GeomOps) (ps : PolygonSet) (p : Polygon)
    (i : Nat) (pv : Vec2) : Option Point :=
  let prev := p.verts.getD (wrapIndex p.verts.length ((i : Int) - 1)) ⟨0, 0⟩
  let next := p.verts.getD (wrapIndex p.verts.length ((i : Int) + 1)) ⟨0, 0⟩
  let e1 := geom.norm (pv.sub prev)
  let e2 := geom.norm (next.sub pv)
  let bis0 := e1.add e2
  let bis1 := if geom.len bis0 = 0 then (⟨-e1.y, e1.x⟩ : Vec2) else bis0
  let bis := (geom.norm bis1).smul margin
  let moved := pv.add bis
  if ps.containsSet moved then some (v2p moved) else none

/-- Scan of one polygon's vertices for the first accepted offset
candidate at a vertex near-equal to the waypoint (pathfinder.go
variant of offsetFromBoundary, inner loop). -/
def offsetVerts (geom : GeomOps) (ps : PolygonSet) (p : Polygon)
    (v : Vec2) : List (Nat × Vec2) → Option Point
  | [] => none
  | iv :: rest =>
    if geom.nearEq iv.2 v then
      match offsetCandidate geom ps p iv.1 iv.2 with
      | some r => some r
      | none => offsetVerts geom ps p v rest
    else offsetVerts geom ps p v rest

/-- Scan of the polygons for the first accepted offset candidate
(pathfinder.go variant of offsetFromBoundary, outer loop). -/
def offsetPolys (geom : GeomOps) (ps : PolygonSet) (v : Vec2) :
    List Polygon → Option Point
  | [] => none
  | p :: rest =>
    match offsetVerts geom ps p v p.verts.enum with
    | some r => some r
    | none => offsetPolys geom ps v rest

/-- Boundary offset post-processing of one waypoint (pathfinder.go,
offsetFromBoundary): first accepted candidate, or the waypoint
unchanged when every candidate is rejected. -/
def offsetFromBoundary (geom : GeomOps) (ps : PolygonSet) (pt : Point) : Point :=
  match offsetPolys geom ps (p2v pt) ps.polys with
  | some r => r
  | none => pt

/-- Pathfinder state of the first source variant (pathfinder.go): the
polygon set, the cached reflex vertex set and the visibility graph of
the last query.  The raw polygon point list field only echoes the
constructor input and is omitted. -/
structure Pathfinder where
  polygonSet : PolygonSet
  concaveVertices : List Point
  visibilityGraph : graph

/-- Constructor (pathfinder.go, NewPathfinder): caches the reflex
vertex set; the last-query graph starts nil, modelled as the empty
adjacency function. -/
def NewPathfinder (ps : PolygonSet) : Pathfinder :=
  { polygonSet := ps
    concaveVertices := concaveVertices ps
    visibilityGraph := emptyGraph }

/-- Path query of the first source variant (pathfinder.go, Path),
with the external search collaborator abstract.  Returns the updated
pathfinder state and the optional path. -/
def Path (geom : GeomOps) (search : SearchFun) (pf : Pathfinder)
    (start dest : Point) : Pathfinder × Option (List Point) :=
  if containmentLevel pf.polygonSet start ≠ containmentLevel pf.polygonSet dest then
    (pf, none)
  else
    let dest' := clampDest margin pf.polygonSet dest
    let gverts := pf.concaveVertices ++ [start, dest']
    let vis := visibilityGraph pf.polygonSet gverts
    let pf' : Pathfinder := { pf with visibilityGraph := vis }
    match search vis start dest' with
    | none => (pf', none)
    | some path => (pf', some (mapMiddle (offsetFromBoundary geom pf.polygonSet) path))

end V1

namespace V2

/-- The boundary offset margin of the second source variant
(const margin = 0.002). -/
def margin : ℚ := 1/500

/-- Offset candidate at one vertex (second source variant of
offsetFromBoundary): outward normals of the two incident edges chosen
by the polygon's orientation sign, their sum as bisector with the
first normal as fallback when the sum has zero length, scaled to the
margin; a hole polygon pushes the vertex outward by adding the
bisector, an area polygon pulls it inward by subtracting it; the
accepted point is converted back with rounding (v2p). -/
def offsetCandidate (geom : GeomOps) (ps : PolygonSet) (pi : Nat)
    (p : Polygon) (i : Nat) (pv : Vec2) : Option Point :=
  let prev := p.verts.getD (wrapIndex p.verts.length ((i : Int) - 1)) ⟨0, 0⟩
  let next := p.verts.getD (wrapIndex p.verts.length ((i : Int) + 1)) ⟨0, 0⟩
  let e1 := geom.norm (pv.sub prev)
  let e2 := geom.norm (next.sub pv)
  let n1 : Vec2 := if 0 < p.orientation then ⟨e1.y, -e1.x⟩ else ⟨-e1.y, e1.x⟩
  let n2 : Vec2 := if 0 < p.orientation then ⟨e2.y, -e2.x⟩ else ⟨-e2.y, e2.x⟩
  let bis0 := n1.add n2
  let bis1 := if geom.len bis0 = 0 then n1 else bis0
  let bis := (geom.norm bis1).smul margin
  if isHole ps pi then
    let moved := pv.add bis
    if ps.containsSet moved then some (v2p moved) else none
  else
    let movedIn := pv.sub bis
    if ps.containsSet movedIn then some (v2p movedIn) else none

/-- Scan of one polygon's vertices for the first accepted offset
candidate (second source variant of offsetFromBoundary, inner loop). -/
def offsetVerts (geom : GeomOps) (ps : PolygonSet) (pi : Nat) (p : Polygon)
    (v : Vec2) : List (Nat × Vec2) → Option Point
  | [] => none
  | iv :: rest =>
    if geom.nearEq iv.2 v then
      match offsetCandidate geom ps pi p iv.1 iv.2 with
      | some r => some r
      | none => offsetVerts geom ps pi p v rest
    else offsetVerts geom ps pi p v rest

/-- Scan of the indexed polygons for the first accepted offset
candidate (second source variant of offsetFromBoundary, outer loop). -/
def offsetPolys (geom : GeomOps) (ps : PolygonSet) (v : Vec2) :
    List (Nat × Polygon) → Option Point
  | [] => none
  | ip :: rest =>
    match offsetVerts geom ps ip.1 ip.2 v ip.2.verts.enum with
    | some r => some r
    | none => offsetPolys geom ps v rest

/-- Boundary offset post-processing of one waypoint (second source
variant, offsetFromBoundary). -/
def offsetFromBoundary (geom : GeomOps) (ps : PolygonSet) (pt : Point) : Point :=
  match offsetPolys geom ps (p2v pt) ps.polys.enum with
  | some r => r
  | none => pt

/-- Pathfinder state of the second source variant: polygon set, cached
reflex vertex set, and the eagerly built base visibility graph. -/
structure Pathfinder where
  polygonSet : PolygonSet
  concaveVertices : List Point
  cachedGraph : graph

/-- Constructor of the second source variant (NewPathfinder): caches
the reflex vertex set and eagerly builds the base visibility graph
over it. -/
def NewPathfinder (ps : PolygonSet) : Pathfinder :=
  { polygonSet := ps
    concaveVertices := concaveVertices ps
    cachedGraph := visibilityGraph ps (concaveVertices ps) }

/-- Graph copy (second source variant, copyGraph): the source
allocates a fresh map and copies every nonempty adjacency slice;
extensionally, on the adjacency function, this is the identity. -/
def copyGraph (g : graph) : graph := fun x => g x

/-- One iteration of an extension loop of prepareVisibilityGraph
(second source variant): link the query point c to the partner b when
in sight, in both directions, each direction tested independently. -/
def prepStep (ps : PolygonSet) (c : Point) (vis : graph) (b : Point) : graph :=
  let vis1 := if b ≠ c ∧ inLineOfSight ps (p2v c) (p2v b) = true
              then link vis c b else vis
  if b ≠ c ∧ inLineOfSight ps (p2v b) (p2v c) = true
  then link vis1 b c else vis1

/-- Incremental extension of the cached base graph with the two query
points (second source variant, prepareVisibilityGraph).  The source's
two self-assignments vis[start] and vis[dest] only touch key presence
and are extensionally no-ops. -/
def prepareVisibilityGraph (pf : Pathfinder) (start dest : Point) : graph :=
  let ps := pf.polygonSet
  let vis0 := copyGraph pf.cachedGraph
  let vis1 := (pf.concaveVertices ++ [dest]).foldl (prepStep ps start) vis0
  let vis2 := (pf.concaveVertices ++ [start]).foldl (prepStep ps dest) vis1
  if inLineOfSight ps (p2v start) (p2v dest) = true
  then link (link vis2 start dest) dest start else vis2

/-- Path query of the second source variant (Path): level gate,
destination clamping, incremental graph extension, abstract search,
boundary offsetting of intermediate waypoints.  No pathfinder field is
assigned, so the state is returned unchanged. -/
def Path (geom : GeomOps) (search : SearchFun) (pf : Pathfinder)
    (start dest : Point) : Pathfinder × Option (List Point) :=
  if containmentLevel pf.polygonSet start ≠ containmentLevel pf.polygonSet dest then
    (pf, none)
  else
    let dest' := clampDest margin pf.polygonSet dest
    let vis := prepareVisibilityGraph pf start dest'
    match search vis start dest' with
    | none => (pf, none)
    | some path => (pf, some (mapMiddle (offsetFromBoundary geom pf.polygonSet) path))

end V2

/-- An axis-aligned rectangle (index.go, rect). -/
structure rect where
  rmin : Point
  rmax : Point
deriving DecidableEq

/-- Rectangle membership, boundary inclusive (index.go,
rect.contains). -/
def rect.containsPt (r : rect) (p : Point) : Bool :=
  decide (r.rmin.x ≤ p.x ∧ p.x ≤ r.rmax.x ∧ r.rmin.y ≤ p.y ∧ p.y ≤ r.rmax.y)

/-- The four quadrant rectangles created by subdivision (index.go,
subdivide): midlines at the coordinate averages. -/
def quadrants (b : rect) : rect × rect × rect × rect :=
  let midX := (b.rmin.x + b.rmax.x) / 2
  let midY := (b.rmin.y + b.rmax.y) / 2
  (⟨b.rmin, ⟨midX, midY⟩⟩,
   ⟨⟨midX, b.rmin.y⟩, ⟨b.rmax.x, midY⟩⟩,
   ⟨⟨b.rmin.x, midY⟩, ⟨midX, b.rmax.y⟩⟩,
   ⟨⟨midX, midY⟩, b.rmax⟩)

/-- A point-region quadtree node (index.go, quadTree): boundary,
capacity, stored points, divided flag, and four optional children
(Go nil pointers are none). -/
inductive quadTree : Type where
  | mk (boundary : rect) (capacity : Nat) (points : List Point) (divided : Bool)
       (nw ne sw se : Option quadTree) : quadTree

/-- Boundary accessor. -/
def quadTree.boundary : quadTree → rect
  | .mk b _ _ _ _ _ _ _ => b

/-- Capacity accessor. -/
def quadTree.capacity : quadTree → Nat
  | .mk _ c _ _ _ _ _ _ => c

/-- Stored points accessor. -/
def quadTree.points : quadTree → List Point
  | .mk _ _ pts _ _ _ _ _ => pts

/-- Divided flag accessor. -/
def quadTree.divided : quadTree → Bool
  | .mk _ _ _ dv _ _ _ _ => dv

/-- Fresh node constructor (index.go, newQuadTree). -/
def newQuadTree (b : rect) (capacity : Nat) : quadTree :=
  .mk b capacity [] false none none none none

/-- Point insertion with a fuel bound (index.go, insert together with
the inlined subdivide).  Every recursive call of the Go code consumes
one unit of fuel, so a Go execution terminates on an input exactly
when some fuel suffices; none signals fuel exhaustion (or the
nil-child dereference that cannot occur on well-formed trees).
Subdivision redistributes each stored point into every child that
accepts it, in nw, ne, sw, se order, exactly as the source's loop;
the four insertion attempts of the main path short-circuit like the
Go disjunction and keep the partial child updates. -/
def quadTree.insert : Nat → quadTree → Point → Option (quadTree × Bool)
  | 0, _, _ => none
  | Nat.succ n, .mk b cap pts dv nw ne sw se, p =>
    if ¬ (rect.containsPt b p = true) then some (.mk b cap pts dv nw ne sw se, false)
    else if pts.length < cap ∧ dv = false then
      some (.mk b cap (pts ++ [p]) dv nw ne sw se, true)
    else do
      let (cnw, cne, csw, cse) ←
        match dv, nw, ne, sw, se with
        | true, some a, some c, some d, some e => some (a, c, d, e)
        | true, _, _, _, _ => none
        | false, _, _, _, _ =>
          let qs := quadrants b
          pts.foldlM
            (fun cs q => do
              let (c1, _) ← quadTree.insert n cs.1 q
              let (c2, _) ← quadTree.insert n cs.2.1 q
              let (c3, _) ← quadTree.insert n cs.2.2.1 q
              let (c4, _) ← quadTree.insert n cs.2.2.2 q
              pure (c1, c2, c3, c4))
            (newQuadTree qs.1 cap, newQuadTree qs.2.1 cap,
             newQuadTree qs.2.2.1 cap, newQuadTree qs.2.2.2 cap)
      let pts' : List Point := if dv then pts else []
      let (cnw', r1) ← quadTree.insert n cnw p
      if r1 then pure (.mk b cap pts' true (some cnw') (some cne) (some csw) (some cse), true)
      else do
        let (cne', r2) ← quadTree.insert n cne p
        if r2 then pure (.mk b cap pts' true (some cnw') (some cne') (some csw) (some cse), true)
        else do
          let (csw', r3) ← quadTree.insert n csw p
          if r3 then pure (.mk b cap pts' true (some cnw') (some cne') (some csw') (some cse), true)
          else do
            let (cse', r4) ← quadTree.insert n cse p
            pure (.mk b cap pts' true (some cnw') (some cne') (some csw') (some cse'), r4)

/-- Termination of an insert call: some fuel bound suffices. -/
def insertTerminates (t : quadTree) (p : Point) : Prop :=
  ∃ n, (quadTree.insert n t p).isSome

/-- Reachable quadtree states: fresh trees and results of terminating
insert calls. -/
inductive ReachableQT : quadTree → Prop where
  | base (b : rect) (c : Nat) : ReachableQT (newQuadTree b c)
  | step {t t' : quadTree} {p : Point} {n : Nat} {r : Bool} :
      ReachableQT t → quadTree.insert n t p = some (t', r) → ReachableQT t'

/-- Structural well-formedness of a quadtree node, an invariant of all
reachable states: an undivided node has no children, a divided node
has exactly the four quadrant children of its boundary, recursively
well-formed. -/
def wfQ : quadTree → Bool
  | .mk b _ _ dv nw ne sw se =>
    match dv, nw, ne, sw, se with
    | false, none, none, none, none => true
    | true, some a, some c, some e, some f =>
      decide (a.boundary = (quadrants b).1) &&
      decide (c.boundary = (quadrants b).2.1) &&
      decide (e.boundary = (quadrants b).2.2.1) &&
      decide (f.boundary = (quadrants b).2.2.2) &&
      wfQ a && wfQ c && wfQ e && wfQ f
    | _, _, _, _, _ => false

section SpecVariantDefinitions

/-- The reflex-vertex extraction as claim C3 words it: polygon i is a
hole exactly when an odd number of the other polygons report
boundary-INCLUSIVE containment of polygon i's first vertex.  This is
the claim's reading; the source passes the exclusive flag. -/
def isHoleClaimed (ps : PolygonSet) (i : Nat) : Bool :=
  ((ps.polys.enum).countP fun jp =>
    decide (jp.1 ≠ i) && jp.2.containsB (firstVert ps i) true) % 2 == 1

/-- Reflex-vertex extraction parameterized by a hole-role predicate:
for each polygon keep its convex vertices when it is a hole and its
concave vertices otherwise, concatenated in input order. -/
def extractByRole (ps : PolygonSet) (role : Nat → Bool) : List Point :=
  (ps.polys.enum).flatMap fun ip =>
    (((ip.2.verts.enum).filter fun iv =>
        if role ip.1 then !(ip.2.isConcaveAt iv.1) else ip.2.isConcaveAt iv.1).map
      fun iv => v2p iv.2)

/-- The extraction exactly as claim C3 states it. -/
def concaveVerticesClaimed (ps : PolygonSet) : List Point :=
  extractByRole ps (isHoleClaimed ps)

/-- The hole role as the amended claim states it: odd count of other
polygons reporting boundary-EXCLUSIVE containment of the first
vertex. -/
def isHoleSpec (ps : PolygonSet) (i : Nat) : Bool :=
  ((ps.polys.enum).countP fun jp =>
    decide (jp.1 ≠ i) && jp.2.containsB (firstVert ps i) false) % 2 == 1

/-- The extraction as the amended claim states it. -/
def concaveVerticesSpec (ps : PolygonSet) : List Point :=
  extractByRole ps (isHoleSpec ps)

/-- Claim C2 as stated, vertex-disjointness clause: for every valid
search collaborator and every polygon set, no intermediate waypoint of
a returned path coincides exactly with a polygon vertex. -/
def noVertexWaypointsV1 : Prop :=
  ∀ (geom : GeomOps) (search : SearchFun), ValidSearch search →
    ∀ (ps : PolygonSet) (start dest : Point) (path : List Point),
      (V1.Path geom search (V1.NewPathfinder ps) start dest).2 = some path →
      ∀ i, 0 < i → i + 1 < path.length →
        ∀ pl ∈ ps.polys, ¬ (p2v (path.getD i ⟨0, 0⟩) ∈ pl.verts)

/-- Exact conversion from Vec2 to Point without rounding, the reading
of "the displaced point" in claim C5. -/
def pointOfVec (v : Vec2) : Point := ⟨v.x, v.y⟩

/-- Offset candidate as claim C5 words it: identical displacement
computation, but the accepted displaced point is returned exactly,
without the source's coordinate rounding. -/
def claimedOffsetCandidate (geom : GeomOps) (ps : PolygonSet) (pi : Nat)
    (p : Polygon) (i : Nat) (pv : Vec2) : Option Point :=
  let prev := p.verts.getD (wrapIndex p.verts.length ((i : Int) - 1)) ⟨0, 0⟩
  let next := p.verts.getD (wrapIndex p.verts.length ((i : Int) + 1)) ⟨0, 0⟩
  let e1 := geom.norm (pv.sub prev)
  let e2 := geom.norm (next.sub pv)
  let n1 : Vec2 := if 0 < p.orientation then ⟨e1.y, -e1.x⟩ else ⟨-e1.y, e1.x⟩
  let n2 : Vec2 := if 0 < p.orientation then ⟨e2.y, -e2.x⟩ else ⟨-e2.y, e2.x⟩
  let bis0 := n1.add n2
  let bis1 := if geom.len bis0 = 0 then n1 else bis0
  let bis := (geom.norm bis1).smul V2.margin
  if isHole ps pi then
    let moved := pv.add bis
    if ps.containsSet moved then some (pointOfVec moved) else none
  else
    let movedIn := pv.sub bis
    if ps.containsSet movedIn then some (pointOfVec movedIn) else none

/-- Vertex scan of the claimed (unrounded) offset. -/
def claimedOffsetVerts (geom : GeomOps) (ps : PolygonSet) (pi : Nat) (p : Polygon)
    (v : Vec2) : List (Nat × Vec2) → Option Point
  | [] => none
  | iv :: rest =>
    if geom.nearEq iv.2 v then
      match claimedOffsetCandidate geom ps pi p iv.1 iv.2 with
      | some r => some r
      | none => claimedOffsetVerts geom ps pi p v rest
    else claimedOffsetVerts geom ps pi p v rest

/-- Polygon scan of the claimed (unrounded) offset. -/
def claimedOffsetPolys (geom : GeomOps) (ps : PolygonSet) (v : Vec2) :
    List (Nat × Polygon) → Option Point
  | [] => none
  | ip :: rest =>
    match claimedOffsetVerts geom ps ip.1 ip.2 v ip.2.verts.enum with
    | some r => some r
    | none => claimedOffsetPolys geom ps v rest

/-- The boundary offset post-processor exactly as claim C5 states it:
the displaced point itself is returned when accepted. -/
def offsetClaimedV2 (geom : GeomOps) (ps : PolygonSet) (pt : Point) : Point :=
  match claimedOffsetPolys geom ps (p2v pt) ps.polys.enum with
  | some r => r
  | none => pt

/-- The amended C5 formulation: the first vertex of the flattened
polygon-and-vertex candidate list that is near-equal to the waypoint
and whose rounded displaced point is accepted decides the result;
otherwise the waypoint is unchanged. -/
def offsetSpecV2 (geom : GeomOps) (ps : PolygonSet) (pt : Point) : Point :=
  match (ps.polys.enum.flatMap fun ip =>
      ip.2.verts.enum.map fun iv => (ip.1, ip.2, iv)).findSome?
      (fun t =>
        if geom.nearEq t.2.2.2 (p2v pt) then
          V2.offsetCandidate geom ps t.1 t.2.1 t.2.2.1 t.2.2.2
        else none) with
  | some r => r
  | none => pt

end SpecVariantDefinitions

section WitnessDefinitions

/-- Collaborator instance with no useful behaviour, for witnesses. -/
def wGeom : GeomOps :=
  { norm := fun v => v, len := fun _ => 0, nearEq := fun _ _ => false }

/-- Search collaborator that never finds a path, for witnesses. -/
def wSearch : SearchFun := fun _ _ _ => none

/-- Polygon containing only the origin, for the C4 witness. -/
def wPoly : Polygon :=
  { verts := [⟨0, 0⟩, ⟨4, 0⟩, ⟨0, 4⟩]
    containsB := fun v _ => decide (v = ⟨0, 0⟩)
    isConcaveAt := fun _ => false
    crossedBy := fun _ => false
    orientation := 1 }

/-- Polygon set for the C4 witness. -/
def wPS : PolygonSet :=
  { polys := [wPoly], containsSet := fun _ => true, closestPt := fun v => v }

/-- First polygon of the C3 counterexample: all vertices concave, its
containment collaborator rejects everything. -/
def c3PolyA : Polygon :=
  { verts := [⟨0, 0⟩, ⟨1, 0⟩, ⟨0, 1⟩]
    containsB := fun _ _ => false
    isConcaveAt := fun _ => true
    crossedBy := fun _ => false
    orientation := 1 }

/-- Second polygon of the C3 counterexample: its containment
collaborator accepts exactly the boundary-inclusive queries, so the
inclusive and exclusive containment tests disagree everywhere. -/
def c3PolyB : Polygon :=
  { verts := [⟨5, 5⟩, ⟨6, 5⟩, ⟨5, 6⟩]
    containsB := fun _ inclusive => inclusive
    isConcaveAt := fun _ => false
    crossedBy := fun _ => false
    orientation := 1 }

/-- Polygon set of the C3 counterexample. -/
def c3PS : PolygonSet :=
  { polys := [c3PolyA, c3PolyB], containsSet := fun _ => true, closestPt := fun v => v }

/-- Polygon of the C2 counterexample: a single reflex vertex at
(10,10) between two axis-aligned edges. -/
def cexPoly : Polygon :=
  { verts := [⟨0, 10⟩, ⟨10, 10⟩, ⟨10, 0⟩]
    containsB := fun _ _ => true
    isConcaveAt := fun i => i == 1
    crossedBy := fun _ => false
    orientation := 1 }

/-- Polygon set of the C2 counterexample: everything is walkable and
nothing ever blocks a segment, so the search graph is complete. -/
def cexPS : PolygonSet :=
  { polys := [cexPoly], containsSet := fun _ => true, closestPt := fun v => v }

/-- Geometry collaborator of the C2 counterexample: normalization is
the identity, near-equality is exact equality, and the length
collaborator reports 1 for every vector (in particular for the nonzero
bisector arising below, where the true squared length would be 200, so
the same non-degenerate branch is taken as with real geometry). -/
def cexGeom : GeomOps :=
  { norm := fun v => v
    len := fun _ => 1
    nearEq := fun a b => decide (a = b) }

/-- Search collaborator of the C2 counterexample: propose the route
through the reflex vertex, returned only after checking it really is a
path of the supplied graph (so the collaborator is valid). -/
def cexSearch : SearchFun := fun g s d =>
  if pathInB g s d [s, ⟨10, 10⟩, d] = true then some [s, ⟨10, 10⟩, d] else none

/-- Polygon of the C5 counterexample: a vertex at (10,10) between two
axis-aligned edges, counter-clockwise orientation reported. -/
def c5Poly : Polygon :=
  { verts := [⟨0, 10⟩, ⟨10, 10⟩, ⟨10, 0⟩]
    containsB := fun _ _ => true
    isConcaveAt := fun _ => false
    crossedBy := fun _ => false
    orientation := 1 }

/-- Polygon set of the C5 counterexample: a single area polygon, all
points walkable. -/
def c5PS : PolygonSet :=
  { polys := [c5Poly], containsSet := fun _ => true, closestPt := fun v => v }

/-- Polygon set of the C6 counterexample: no polygons, everything in
line of sight, so the incremental extension links start and dest three
times over while the rebuild links them once. -/
def c6PS : PolygonSet :=
  { polys := [], containsSet := fun _ => true, closestPt := fun v => v }

/-- Polygon set of the C6 witness: no polygons, and only the midpoint
(1,0) of the start-dest segment is contained, so line of sight holds
between start (0,0) and dest (2,0) but not from a point to itself. -/
def c6wPS : PolygonSet :=
  { polys := [], containsSet := fun v => decide (v = ⟨1, 0⟩), closestPt := fun v => v }

/-- A rational is a whole integer. -/
def isIntQ (q : ℚ) : Prop := ∃ n : ℤ, q = n

/-- Degenerate zero-area boundary rectangle of the C10 counterexample:
all four quadrants equal the rectangle itself. -/
def b0 : rect := ⟨⟨0, 0⟩, ⟨0, 0⟩⟩

/-- Quadtree state of the C10 counterexample: capacity 1, holding the
origin, reachable by one insert into the fresh tree.  Inserting the
origin again subdivides forever. -/
def qt0 : quadTree := .mk b0 1 [⟨0, 0⟩] false none none none none

/-- Polygon set of the C9 counterexample: the closest boundary point
is always (0.4, 0.3), and the only point the containment collaborator
accepts is the first nudge probe (-0.001, -0.001), so clamping ends on
non-integer coordinates. -/
def c9PS : PolygonSet :=
  { polys := []
    containsSet := fun v => decide (v = ⟨-1/1000, -1/1000⟩)
    closestPt := fun _ => ⟨2/5, 3/10⟩ }

end WitnessDefinitions

section Theorems

/-- Auxiliary characterization of the line-of-sight polygon scan. -/
theorem inLineOfSightAux_iff (ps : PolygonSet) (seg : LineSeg) (l : List Polygon) :
    inLineOfSightAux ps seg l = true ↔
      (∀ p ∈ l, p.crossedBy seg = false) ∧ ps.containsSet seg.middle = true := by
  induction l with
  | nil => simp [inLineOfSightAux]
  | cons p rest ih =>
    by_cases hc : p.crossedBy seg = true
    · simp [inLineOfSightAux, hc]
    · have hc' : p.crossedBy seg = false := by simpa using hc
      simp [inLineOfSightAux, hc', ih]

/-- C1: the visibility-graph edge test reports two points mutually
visible iff no polygon of the set is crossed by the segment between
them and the segment's midpoint is contained in the walkable region. -/
theorem inLineOfSight_iff_no_crossing_and_middle_contained
    (ps : PolygonSet) (a b : Vec2) :
    inLineOfSight ps a b = true ↔
      (∀ p ∈ ps.polys, p.crossedBy ⟨a, b⟩ = false) ∧
        ps.containsSet (LineSeg.middle ⟨a, b⟩) = true := by
  exact inLineOfSightAux_iff ps ⟨a, b⟩ ps.polys

/-- C4: when the containment levels of start and dest differ, Path
returns the no-path result, leaving the state unchanged, for every
behaviour of the clamping, graph and search collaborators. -/
theorem path_level_mismatch_returns_nil
    (geom : GeomOps) (search : SearchFun) (pf : V1.Pathfinder) (start dest : Point)
    (h : containmentLevel pf.polygonSet start ≠ containmentLevel pf.polygonSet dest) :
    V1.Path geom search pf start dest = (pf, none) := by
  unfold V1.Path
  rw [if_pos h]

/-- Witness for C4: concrete start and dest at different containment
levels make Path return nil with the state unchanged. -/
theorem path_level_mismatch_returns_nil_witness :
    containmentLevel wPS ⟨0, 0⟩ ≠ containmentLevel wPS ⟨5, 5⟩ ∧
      V1.Path wGeom wSearch (V1.NewPathfinder wPS) ⟨0, 0⟩ ⟨5, 5⟩ =
        (V1.NewPathfinder wPS, none) :=
  ⟨by decide, path_level_mismatch_returns_nil wGeom wSearch _ _ _ (by decide)⟩

/-- C7: a Path call on the second source variant leaves the polygon
set, the reflex vertex set and the cached base visibility graph of the
pathfinder unchanged: the extended graph is built from a copy. -/
theorem path_preserves_pathfinder_state
    (geom : GeomOps) (search : SearchFun) (pf : V2.Pathfinder) (start dest : Point) :
    (V2.Path geom search pf start dest).1.polygonSet = pf.polygonSet ∧
      (V2.Path geom search pf start dest).1.concaveVertices = pf.concaveVertices ∧
      (V2.Path geom search pf start dest).1.cachedGraph = pf.cachedGraph := by
  unfold V2.Path
  split
  · exact ⟨rfl, rfl, rfl⟩
  · dsimp only
    split <;> exact ⟨rfl, rfl, rfl⟩

/-- C8: two Path calls with the same arguments on pathfinders
constructed from the same polygon set return identical results. -/
theorem path_deterministic
    (geom : GeomOps) (search : SearchFun) (ps : PolygonSet)
    (pf1 pf2 : V2.Pathfinder) (start dest : Point)
    (h1 : pf1 = V2.NewPathfinder ps) (h2 : pf2 = V2.NewPathfinder ps) :
    V2.Path geom search pf1 start dest = V2.Path geom search pf2 start dest := by
  subst h1; subst h2; rfl

/-- Witness for C8 at a concrete polygon set and query. -/
theorem path_deterministic_witness :
    V2.Path wGeom wSearch (V2.NewPathfinder wPS) ⟨0, 0⟩ ⟨0, 0⟩ =
      V2.Path wGeom wSearch (V2.NewPathfinder wPS) ⟨0, 0⟩ ⟨0, 0⟩ :=
  path_deterministic wGeom wSearch wPS _ _ ⟨0, 0⟩ ⟨0, 0⟩ rfl rfl

/-- Parity of successor counts. -/
theorem succ_mod_two_beq (n : Nat) : ((n + 1) % 2 == 1) = !(n % 2 == 1) := by
  rcases Nat.mod_two_eq_zero_or_one n with h | h <;> simp [Nat.add_mod, h]

/-- A fold that toggles a flag on each matching element computes the
xor of the seed with the parity of the match count. -/
theorem foldl_toggle {α : Type} (P : α → Prop) [DecidablePred P]
    (l : List α) (b : Bool) :
    l.foldl (fun h x => if P x then !h else h) b =
      (b != ((l.countP fun x => decide (P x)) % 2 == 1)) := by
  induction l generalizing b with
  | nil => simp
  | cons x rest ih =>
    by_cases hx : P x
    · rw [List.foldl_cons, if_pos hx, ih, List.countP_cons]
      have hd : decide (P x) = true := decide_eq_true hx
      rw [hd, if_pos rfl, succ_mod_two_beq]
      cases b <;> cases hpar : ((rest.countP fun x => decide (P x)) % 2 == 1) <;> simp
    · rw [List.foldl_cons, if_neg hx, ih, List.countP_cons]
      have hd : decide (P x) = false := decide_eq_false hx
      rw [hd]
      simp

/-- The source's toggle-based hole test agrees with the parity-count
formulation over the boundary-exclusive containment test. -/
theorem isHole_eq_isHoleSpec (ps : PolygonSet) (i : Nat) :
    isHole ps i = isHoleSpec ps i := by
  unfold isHole isHoleSpec
  rw [foldl_toggle]
  have hp : (fun jp : Nat × Polygon =>
      decide (jp.1 ≠ i ∧ jp.2.containsB (firstVert ps i) false = true)) =
      fun jp : Nat × Polygon =>
        decide (jp.1 ≠ i) && jp.2.containsB (firstVert ps i) false := by
    funext jp
    by_cases h1 : jp.1 = i <;> by_cases h2 : jp.2.containsB (firstVert ps i) false = true <;>
      simp [h1, h2]
  rw [hp]
  simp

/-- A fold that appends the image of each matching element equals the
accumulator followed by the filtered-mapped list. -/
theorem foldl_append_filter {α β : Type} (P : α → Prop) [DecidablePred P]
    (f : α → β) (l : List α) (acc : List β) :
    l.foldl (fun vs x => if P x then vs ++ [f x] else vs) acc =
      acc ++ (l.filter fun x => decide (P x)).map f := by
  induction l generalizing acc with
  | nil => simp
  | cons x rest ih =>
    by_cases hx : P x <;> simp [hx, ih]

/-- Convex-vertex selection as a filter and map. -/
theorem verticesOfType_convex (p : Polygon) :
    verticesOfType p .convex =
      ((p.verts.enum.filter fun iv => !(p.isConcaveAt iv.1)).map fun iv => v2p iv.2) := by
  unfold verticesOfType
  rw [foldl_append_filter]
  have hp : (fun iv : Nat × Vec2 =>
      decide ((vertexType.convex = vertexType.concave ∧ p.isConcaveAt iv.1 = true) ∨
        (vertexType.convex = vertexType.convex ∧ ¬ p.isConcaveAt iv.1 = true))) =
      fun iv : Nat × Vec2 => !(p.isConcaveAt iv.1) := by
    funext iv
    by_cases h : p.isConcaveAt iv.1 = true <;> simp [h]
  rw [hp]
  simp

/-- Concave-vertex selection as a filter and map. -/
theorem verticesOfType_concave (p : Polygon) :
    verticesOfType p .concave =
      ((p.verts.enum.filter fun iv => p.isConcaveAt iv.1).map fun iv => v2p iv.2) := by
  unfold verticesOfType
  rw [foldl_append_filter]
  have hp : (fun iv : Nat × Vec2 =>
      decide ((vertexType.concave = vertexType.concave ∧ p.isConcaveAt iv.1 = true) ∨
        (vertexType.concave = vertexType.convex ∧ ¬ p.isConcaveAt iv.1 = true))) =
      fun iv : Nat × Vec2 => p.isConcaveAt iv.1 := by
    funext iv
    by_cases h : p.isConcaveAt iv.1 = true <;> simp [h]
  rw [hp]
  simp

/-- A fold that appends a block per element equals the accumulator
followed by the concatenation of the blocks. -/
theorem foldl_append_bind {α β : Type} (g : α → List β) (l : List α) (acc : List β) :
    l.foldl (fun vs x => vs ++ g x) acc = acc ++ l.flatMap g := by
  induction l generalizing acc with
  | nil => simp
  | cons x rest ih => simp [ih]

/-- C3 counterexample: the extraction claimed with boundary-inclusive
role containment disagrees with the source's extraction on a concrete
polygon set whose containment collaborator distinguishes the two
flags. -/
theorem concaveVertices_claimed_false :
    concaveVertices c3PS ≠ concaveVerticesClaimed c3PS := by
  have hA : concaveVertices c3PS = [v2p ⟨0, 0⟩, v2p ⟨1, 0⟩, v2p ⟨0, 1⟩] := rfl
  have hB : concaveVerticesClaimed c3PS = [] := rfl
  rw [hA, hB]
  simp

/-- C3 amended: the extraction computes each polygon's hole role as
the parity of the boundary-exclusive containment reports of the other
polygons on its first vertex, then keeps concave vertices of area
polygons and convex vertices of hole polygons, concatenated in input
order. -/
theorem concaveVertices_eq_spec (ps : PolygonSet) :
    concaveVertices ps = concaveVerticesSpec ps := by
  unfold concaveVertices concaveVerticesSpec extractByRole
  rw [foldl_append_bind]
  rw [List.nil_append]
  apply congrArg
  funext ip
  by_cases h : isHole ps ip.1 = true
  · rw [if_pos h, verticesOfType_convex]
    rw [isHole_eq_isHoleSpec] at h
    simp [h]
  · have h' : isHole ps ip.1 = false := by simpa using h
    rw [if_neg (by simp [h']), verticesOfType_concave]
    rw [isHole_eq_isHoleSpec] at h'
    simp [h']

/-- Rounding evaluation: 10.01 rounds to 10. -/
theorem goRound_1001_100 : goRound (1001/100 : ℚ) = 10 := by
  unfold goRound
  rw [if_pos (by norm_num)]
  rw [show ⌊(1001/100 : ℚ) + 1/2⌋ = (10 : ℤ) from by norm_num [Int.floor_eq_iff]]
  norm_num

/-- Rounding evaluation: 9.99 rounds to 10. -/
theorem goRound_999_100 : goRound (999/100 : ℚ) = 10 := by
  unfold goRound
  rw [if_pos (by norm_num)]
  rw [show ⌊(999/100 : ℚ) + 1/2⌋ = (10 : ℤ) from by norm_num [Int.floor_eq_iff]]
  norm_num

/-- Rounding evaluation: whole numbers are fixed points. -/
theorem goRound_10 : goRound (10 : ℚ) = 10 := by
  unfold goRound
  rw [if_pos (by norm_num)]
  rw [show ⌊(10 : ℚ) + 1/2⌋ = (10 : ℤ) from by norm_num [Int.floor_eq_iff]]
  norm_num

/-- Conversion evaluation at the reflex vertex of the C2 instance. -/
theorem v2p_1010 : v2p (⟨10, 10⟩ : Vec2) = (⟨10, 10⟩ : Point) := by
  unfold v2p
  rw [goRound_10]

/-- The reflex vertex set of the C2 instance. -/
theorem concaveVertices_cexPS : concaveVertices cexPS = [(⟨10, 10⟩ : Point)] := by
  have h1 : concaveVertices cexPS = [v2p ⟨10, 10⟩] := rfl
  rw [h1, v2p_1010]

/-- The C2 search collaborator is valid. -/
theorem cexSearch_valid : ValidSearch cexSearch := by
  intro g s d l h
  unfold cexSearch at h
  split at h
  · cases h
    assumption
  · cases h

/-- Boundary offsetting of the C2 instance waypoint: the displaced
point (10.01, 9.99) is accepted but rounding returns it to the vertex
(10, 10). -/
theorem offset_cex_eval :
    V1.offsetFromBoundary cexGeom cexPS ⟨10, 10⟩ = ⟨10, 10⟩ := by
  have h1 : V1.offsetFromBoundary cexGeom cexPS ⟨10, 10⟩ =
      v2p ⟨10 + ((10 - 0) + (10 - 10)) * (1/1000), 10 + ((10 - 10) + (0 - 10)) * (1/1000)⟩ :=
    rfl
  have h2 : (⟨10 + ((10 - 0) + (10 - 10)) * (1/1000),
      10 + ((10 - 10) + (0 - 10)) * (1/1000)⟩ : Vec2) = ⟨1001/100, 999/100⟩ := by
    rw [Vec2.mk.injEq]
    norm_num
  have h3 : v2p ⟨1001/100, 999/100⟩ = (⟨10, 10⟩ : Point) := by
    unfold v2p
    rw [goRound_1001_100, goRound_999_100]
  rw [h1, h2, h3]

/-- Evaluation of the full Path query of the C2 instance: the route
through the reflex vertex is found and, after boundary offsetting,
its middle waypoint is still exactly the vertex (10, 10). -/
theorem pathEval_cex :
    (V1.Path cexGeom cexSearch (V1.NewPathfinder cexPS) ⟨5, 5⟩ ⟨25, 15⟩).2 =
      some [⟨5, 5⟩, ⟨10, 10⟩, ⟨25, 15⟩] := by
  unfold V1.Path
  rw [if_neg (by decide)]
  dsimp only [V1.NewPathfinder]
  rw [concaveVertices_cexPS]
  have hcd : clampDest V1.margin cexPS ⟨25, 15⟩ = ⟨25, 15⟩ := rfl
  rw [hcd]
  have hs : cexSearch (visibilityGraph cexPS ([(⟨10, 10⟩ : Point)] ++ [⟨5, 5⟩, ⟨25, 15⟩]))
      ⟨5, 5⟩ ⟨25, 15⟩ = some [⟨5, 5⟩, ⟨10, 10⟩, ⟨25, 15⟩] := rfl
  rw [hs]
  have hmm : mapMiddle (V1.offsetFromBoundary cexGeom cexPS)
      [⟨5, 5⟩, ⟨10, 10⟩, ⟨25, 15⟩] =
      [⟨5, 5⟩, V1.offsetFromBoundary cexGeom cexPS ⟨10, 10⟩, ⟨25, 15⟩] := rfl
  dsimp only
  rw [hmm, offset_cex_eval]

/-- C2 counterexample: on a concrete polygon set with a reflex vertex
at integer coordinates, the returned path's intermediate waypoint is
exactly the polygon vertex (10, 10): the boundary offset is undone by
the coordinate rounding of v2p. -/
theorem path_waypoint_on_vertex_cex : ¬ noVertexWaypointsV1 := by
  intro h
  have h2 := h cexGeom cexSearch cexSearch_valid cexPS ⟨5, 5⟩ ⟨25, 15⟩
    [⟨5, 5⟩, ⟨10, 10⟩, ⟨25, 15⟩] pathEval_cex 1 (by decide) (by decide)
    cexPoly (by simp [cexPS])
  exact h2 (by decide)

/-- The offset of a waypoint is the waypoint itself or the rounding of
a displaced point accepted by the containment test (inner scan). -/
theorem offsetVerts_some (geom : GeomOps) (ps : PolygonSet) (p : Polygon)
    (v : Vec2) (ivs : List (Nat × Vec2)) (r : Point)
    (h : V1.offsetVerts geom ps p v ivs = some r) :
    ∃ m, r = v2p m ∧ ps.containsSet m = true := by
  induction ivs with
  | nil => simp [V1.offsetVerts] at h
  | cons iv rest ih =>
    unfold V1.offsetVerts at h
    split at h
    · rcases hc : V1.offsetCandidate geom ps p iv.1 iv.2 with _ | r'
      · rw [hc] at h
        exact ih h
      · rw [hc] at h
        cases h
        simp only [V1.offsetCandidate] at hc
        split at hc <;> split at hc <;>
          first
            | (cases hc; exact ⟨_, rfl, by assumption⟩)
            | cases hc
    · exact ih h

/-- The offset of a waypoint is the waypoint itself or the rounding of
a displaced point accepted by the containment test (outer scan). -/
theorem offsetPolys_some (geom : GeomOps) (ps : PolygonSet) (v : Vec2)
    (l : List Polygon) (r : Point)
    (h : V1.offsetPolys geom ps v l = some r) :
    ∃ m, r = v2p m ∧ ps.containsSet m = true := by
  induction l with
  | nil => simp [V1.offsetPolys] at h
  | cons p rest ih =>
    unfold V1.offsetPolys at h
    rcases hv : V1.offsetVerts geom ps p v p.verts.enum with _ | r'
    · rw [hv] at h
      exact ih h
    · rw [hv] at h
      cases h
      exact offsetVerts_some geom ps p v _ _ hv

/-- Case analysis of the boundary offset: either the waypoint is
returned unchanged, or the result is the rounding (v2p) of a displaced
point that the walkable containment test accepts. -/
theorem offsetFromBoundary_cases (geom : GeomOps) (ps : PolygonSet) (pt : Point) :
    V1.offsetFromBoundary geom ps pt = pt ∨
      ∃ m, V1.offsetFromBoundary geom ps pt = v2p m ∧ ps.containsSet m = true := by
  unfold V1.offsetFromBoundary
  rcases hp : V1.offsetPolys geom ps (p2v pt) ps.polys with _ | r
  · left; rfl
  · right
    obtain ⟨m, hm, hc⟩ := offsetPolys_some geom ps (p2v pt) ps.polys r hp
    exact ⟨m, hm ▸ rfl, hc⟩

/-- Element access through mapMiddle at a middle index applies the
offset function to the raw waypoint. -/
theorem mapMiddle_getD (f : Point → Point) (l : List Point) (i : Nat)
    (h1 : 0 < i) (h2 : i + 1 < l.length) :
    (mapMiddle f l).getD i ⟨0, 0⟩ = f (l.getD i ⟨0, 0⟩) := by
  have hi : i < l.length := Nat.lt_of_succ_lt h2
  have hlen : (mapMiddle f l).length = l.length := by
    unfold mapMiddle
    rw [List.length_map, List.enum_length]
  have hi' : i < (mapMiddle f l).length := hlen ▸ hi
  rw [List.getD_eq_getElem _ _ hi', List.getD_eq_getElem _ _ hi]
  unfold mapMiddle
  rw [List.getElem_map]
  rw [List.getElem_enum]
  rw [if_pos ⟨h1, h2⟩]

/-- C2 amended: every intermediate waypoint of a returned path is the
boundary-offset image of the corresponding raw search waypoint, and
that image either is the raw waypoint unchanged or the coordinate-wise
rounding of a displaced point accepted by the walkable containment
test; coincidence with a polygon vertex is therefore possible. -/
theorem path_middle_waypoints_offset
    (geom : GeomOps) (search : SearchFun) (pf : V1.Pathfinder)
    (start dest : Point) (path : List Point)
    (h : (V1.Path geom search pf start dest).2 = some path)
    (i : Nat) (h1 : 0 < i) (h2 : i + 1 < path.length) :
    ∃ w, path.getD i ⟨0, 0⟩ = V1.offsetFromBoundary geom pf.polygonSet w ∧
      (V1.offsetFromBoundary geom pf.polygonSet w = w ∨
        ∃ m, V1.offsetFromBoundary geom pf.polygonSet w = v2p m ∧
          pf.polygonSet.containsSet m = true) := by
  unfold V1.Path at h
  split at h
  · simp at h
  · dsimp only at h
    rcases hs : search
        (visibilityGraph pf.polygonSet
          (pf.concaveVertices ++ [start, clampDest V1.margin pf.polygonSet dest]))
        start (clampDest V1.margin pf.polygonSet dest) with _ | raw
    · rw [hs] at h
      simp at h
    · rw [hs] at h
      simp only [Option.some.injEq] at h
      subst h
      refine ⟨raw.getD i ⟨0, 0⟩, ?_, offsetFromBoundary_cases geom pf.polygonSet _⟩
      have hlen : (mapMiddle (V1.offsetFromBoundary geom pf.polygonSet) raw).length =
          raw.length := by
        unfold mapMiddle
        rw [List.length_map, List.enum_length]
      exact mapMiddle_getD _ raw i h1 (by rw [hlen] at h2; exact h2)

/-- Witness for the amended C2 theorem at the concrete instance. -/
theorem path_middle_waypoints_offset_witness :
    ∃ w, (([⟨5, 5⟩, ⟨10, 10⟩, ⟨25, 15⟩] : List Point).getD 1 ⟨0, 0⟩ =
        V1.offsetFromBoundary cexGeom (V1.NewPathfinder cexPS).polygonSet w) ∧
      (V1.offsetFromBoundary cexGeom (V1.NewPathfinder cexPS).polygonSet w = w ∨
        ∃ m, V1.offsetFromBoundary cexGeom (V1.NewPathfinder cexPS).polygonSet w = v2p m ∧
          (V1.NewPathfinder cexPS).polygonSet.containsSet m = true) :=
  path_middle_waypoints_offset cexGeom cexSearch (V1.NewPathfinder cexPS)
    ⟨5, 5⟩ ⟨25, 15⟩ [⟨5, 5⟩, ⟨10, 10⟩, ⟨25, 15⟩] pathEval_cex 1 (by decide) (by decide)

/-- Rounding evaluation: 10.02 rounds to 10. -/
theorem goRound_501_50 : goRound (501/50 : ℚ) = 10 := by
  unfold goRound
  rw [if_pos (by norm_num)]
  rw [show ⌊(501/50 : ℚ) + 1/2⌋ = (10 : ℤ) from by norm_num [Int.floor_eq_iff]]
  norm_num

/-- C5 counterexample: on a concrete area polygon the source's offset
returns the rounded displaced point (10, 10), not the displaced point
(10.02, 10.02) that the claim describes. -/
theorem offsetFromBoundary_claimed_false :
    V2.offsetFromBoundary cexGeom c5PS ⟨10, 10⟩ ≠ offsetClaimedV2 cexGeom c5PS ⟨10, 10⟩ := by
  have hL : V2.offsetFromBoundary cexGeom c5PS ⟨10, 10⟩ =
      v2p ⟨10 - ((10 - 10) + (0 - 10)) * (1/500),
           10 - (-(10 - 0) + -(10 - 10)) * (1/500)⟩ := rfl
  have hLv : (⟨10 - ((10 - 10) + (0 - 10)) * (1/500),
      10 - (-(10 - 0) + -(10 - 10)) * (1/500)⟩ : Vec2) = ⟨501/50, 501/50⟩ := by
    rw [Vec2.mk.injEq]
    norm_num
  have hL2 : V2.offsetFromBoundary cexGeom c5PS ⟨10, 10⟩ = ⟨10, 10⟩ := by
    rw [hL, hLv]
    unfold v2p
    rw [goRound_501_50]
  have hR : offsetClaimedV2 cexGeom c5PS ⟨10, 10⟩ =
      pointOfVec ⟨10 - ((10 - 10) + (0 - 10)) * (1/500),
        10 - (-(10 - 0) + -(10 - 10)) * (1/500)⟩ := rfl
  have hR2 : offsetClaimedV2 cexGeom c5PS ⟨10, 10⟩ = ⟨501/50, 501/50⟩ := by
    rw [hR, hLv]
    rfl
  rw [hL2, hR2]
  intro h
  rw [Point.mk.injEq] at h
  have := h.1
  norm_num at this

/-- Find-first over an appended candidate list. -/
theorem findSome?_append_eq {α β : Type} (f : α → Option β) (l1 l2 : List α) :
    ((l1 ++ l2).findSome? f) =
      (match l1.findSome? f with
       | some b => some b
       | none => l2.findSome? f) := by
  induction l1 with
  | nil => simp
  | cons x rest ih =>
    rw [List.cons_append, List.findSome?_cons, List.findSome?_cons]
    cases f x <;> simp [ih]

/-- The inner vertex scan of the source's offset is find-first over
the tagged vertex list. -/
theorem offsetVerts_eq_findSome (geom : GeomOps) (ps : PolygonSet) (pi : Nat)
    (p : Polygon) (v : Vec2) (ivs : List (Nat × Vec2)) :
    V2.offsetVerts geom ps pi p v ivs =
      (ivs.map fun iv => (pi, p, iv)).findSome?
        (fun t =>
          if geom.nearEq t.2.2.2 v then
            V2.offsetCandidate geom ps t.1 t.2.1 t.2.2.1 t.2.2.2
          else none) := by
  induction ivs with
  | nil => simp [V2.offsetVerts]
  | cons iv rest ih =>
    rw [List.map_cons, List.findSome?_cons]
    unfold V2.offsetVerts
    by_cases hne : geom.nearEq iv.2 v = true
    · rw [if_pos hne, if_pos hne]
      cases hc : V2.offsetCandidate geom ps pi p iv.1 iv.2 <;> simp [ih]
    · rw [if_neg hne, if_neg hne]
      exact ih

/-- The outer polygon scan of the source's offset is find-first over
the flattened candidate list. -/
theorem offsetPolys_eq_findSome (geom : GeomOps) (ps : PolygonSet) (v : Vec2)
    (ips : List (Nat × Polygon)) :
    V2.offsetPolys geom ps v ips =
      (ips.flatMap fun ip => ip.2.verts.enum.map fun iv => (ip.1, ip.2, iv)).findSome?
        (fun t =>
          if geom.nearEq t.2.2.2 v then
            V2.offsetCandidate geom ps t.1 t.2.1 t.2.2.1 t.2.2.2
          else none) := by
  induction ips with
  | nil => simp [V2.offsetPolys]
  | cons ip rest ih =>
    rw [List.flatMap_cons, findSome?_append_eq]
    unfold V2.offsetPolys
    rw [← offsetVerts_eq_findSome]
    cases hv : V2.offsetVerts geom ps ip.1 ip.2 v ip.2.verts.enum <;> simp [ih]

/-- C5 amended: the second source variant's boundary offset equals the
declarative first-match formulation: the first near-equal vertex in
polygon-then-vertex order whose displaced point (outward for holes,
inward for areas, first normal as fallback for cancelling normals) is
accepted by containment yields the ROUNDED displaced point (v2p);
otherwise the waypoint is returned unchanged. -/
theorem offsetFromBoundary_eq_spec (geom : GeomOps) (ps : PolygonSet) (pt : Point) :
    V2.offsetFromBoundary geom ps pt = offsetSpecV2 geom ps pt := by
  unfold V2.offsetFromBoundary offsetSpecV2
  rw [offsetPolys_eq_findSome]

/-- Rounding evaluation: 0.4 rounds to 0. -/
theorem goRound_2_5 : goRound (2/5 : ℚ) = 0 := by
  unfold goRound
  rw [if_pos (by norm_num)]
  rw [show ⌊(2/5 : ℚ) + 1/2⌋ = (0 : ℤ) from by norm_num [Int.floor_eq_iff]]
  norm_num

/-- Rounding evaluation: 0.3 rounds to 0. -/
theorem goRound_3_10 : goRound (3/10 : ℚ) = 0 := by
  unfold goRound
  rw [if_pos (by norm_num)]
  rw [show ⌊(3/10 : ℚ) + 1/2⌋ = (0 : ℤ) from by norm_num [Int.floor_eq_iff]]
  norm_num

/-- The containment test of the C9 instance rejects the rounded
closest point. -/
theorem c9_contains_origin_false : c9PS.containsSet (p2v ⟨0, 0⟩) = false := by
  apply decide_eq_false
  intro h
  rw [show p2v ⟨0, 0⟩ = (⟨0, 0⟩ : Vec2) from rfl, Vec2.mk.injEq] at h
  have := h.1
  norm_num at this

/-- The containment test of the C9 instance rejects the queried
destination. -/
theorem c9_contains_dest_false : c9PS.containsSet (p2v ⟨5, 5⟩) = false := by
  apply decide_eq_false
  intro h
  rw [show p2v ⟨5, 5⟩ = (⟨5, 5⟩ : Vec2) from rfl, Vec2.mk.injEq] at h
  have := h.1
  norm_num at this

/-- Clamping evaluation of the C9 instance: the rounded closest point
(0,0) is rejected and the first probe (-0.001, -0.001) is accepted. -/
theorem clampDest_c9_eval :
    clampDest V1.margin c9PS ⟨5, 5⟩ = ⟨-1/1000, -1/1000⟩ := by
  have h0 : clampDest V1.margin c9PS ⟨5, 5⟩ = ensureInside V1.margin c9PS ⟨0, 0⟩ := by
    unfold clampDest
    rw [if_neg (by rw [c9_contains_dest_false]; exact Bool.false_ne_true)]
    rw [show c9PS.closestPt (p2v ⟨5, 5⟩) = (⟨2/5, 3/10⟩ : Vec2) from rfl]
    rw [show v2p (⟨2/5, 3/10⟩ : Vec2) = (⟨0, 0⟩ : Point) from by
      unfold v2p; rw [goRound_2_5, goRound_3_10]]
  rw [h0]
  unfold ensureInside
  rw [if_neg (by rw [c9_contains_origin_false]; exact Bool.false_ne_true)]
  have hprobe : c9PS.containsSet
      (p2v ((⟨0, 0⟩ : Point).add ⟨((-1 : ℤ) : ℚ) * V1.margin, ((-1 : ℤ) : ℚ) * V1.margin⟩)) =
      true := by
    apply decide_eq_true
    rw [Vec2.mk.injEq]
    unfold V1.margin
    norm_num [Point.add, p2v]
  rw [probeOffsets, List.findSome?_cons]
  dsimp only
  rw [if_pos hprobe]
  rw [Point.mk.injEq]
  unfold V1.margin
  norm_num [Point.add]

/-- C9 counterexample: the destination (5,5) is uncontained, yet the
clamped destination has coordinates -0.001, not whole integers: the
ensureInside nudge breaks integrality after rounding. -/
theorem clampDest_not_integer_cex :
    c9PS.containsSet (p2v ⟨5, 5⟩) = false ∧
      ¬ (isIntQ (clampDest V1.margin c9PS ⟨5, 5⟩).x ∧
          isIntQ (clampDest V1.margin c9PS ⟨5, 5⟩).y) := by
  refine ⟨c9_contains_dest_false, ?_⟩
  rw [clampDest_c9_eval]
  rintro ⟨⟨n, hn⟩, _⟩
  dsimp only at hn
  have h2 : ((-1 : ℤ) : ℚ) = ((1000 * n : ℤ) : ℚ) := by push_cast; linarith [hn]
  have h3 : (-1 : ℤ) = 1000 * n := Int.cast_injective h2
  omega

/-- The rounded point of v2p has integer coordinates. -/
theorem v2p_isInt (v : Vec2) : isIntQ (v2p v).x ∧ isIntQ (v2p v).y := by
  constructor <;> · unfold v2p goRound; dsimp only; split <;> exact ⟨_, rfl⟩

/-- The nudge returns its input or one of the eight margin probes. -/
theorem ensureInside_mem (m : ℚ) (ps : PolygonSet) (pt : Point) :
    ensureInside m ps pt = pt ∨
      ∃ d ∈ probeOffsets, ensureInside m ps pt =
        pt.add ⟨(d.1 : ℚ) * m, (d.2 : ℚ) * m⟩ := by
  unfold ensureInside
  split
  · left; rfl
  · rcases hf : probeOffsets.findSome? (fun d =>
      let npt : Point := pt.add ⟨(d.1 : ℚ) * m, (d.2 : ℚ) * m⟩
      if ps.containsSet (p2v npt) then some npt else none) with _ | npt
    · rw [hf]
      left; rfl
    · obtain ⟨d, hd, hfd⟩ := List.exists_of_findSome?_eq_some hf
      right
      refine ⟨d, hd, ?_⟩
      rw [hf]
      dsimp only at hfd ⊢
      split at hfd
      · cases hfd
        rfl
      · cases hfd

/-- Rounding moves a coordinate by at most half a unit. -/
theorem abs_goRound_sub_le (q : ℚ) : |goRound q - q| ≤ 1/2 := by
  unfold goRound
  split
  · rw [abs_le]
    constructor
    · have := Int.sub_one_lt_floor (q + 1/2)
      linarith
    · have := Int.floor_le (q + 1/2)
      linarith
  · rw [show ((-⌊-q + 1/2⌋ : ℤ) : ℚ) - q = -(((⌊-q + 1/2⌋ : ℤ) : ℚ) - (-q)) from by
      push_cast; ring]
    rw [abs_neg, abs_le]
    constructor
    · have := Int.sub_one_lt_floor (-q + 1/2)
      linarith
    · have := Int.floor_le (-q + 1/2)
      linarith

/-- C9 amended: for an uncontained destination, the ROUNDED closest
boundary point has whole-integer coordinates and differs from the true
closest point by at most half a unit per coordinate; the clamped
destination Path uses is that rounded point possibly nudged by exactly
one margin step in each coordinate, so its coordinates need not be
integers. -/
theorem clampDest_rounds_and_nudges (ps : PolygonSet) (dest : Point)
    (h : ps.containsSet (p2v dest) = false) :
    (isIntQ (v2p (ps.closestPt (p2v dest))).x ∧
      isIntQ (v2p (ps.closestPt (p2v dest))).y) ∧
    (clampDest V1.margin ps dest = v2p (ps.closestPt (p2v dest)) ∨
      ∃ d ∈ probeOffsets, clampDest V1.margin ps dest =
        (v2p (ps.closestPt (p2v dest))).add
          ⟨(d.1 : ℚ) * V1.margin, (d.2 : ℚ) * V1.margin⟩) ∧
    |(v2p (ps.closestPt (p2v dest))).x - (ps.closestPt (p2v dest)).x| ≤ 1/2 ∧
    |(v2p (ps.closestPt (p2v dest))).y - (ps.closestPt (p2v dest)).y| ≤ 1/2 := by
  refine ⟨v2p_isInt _, ?_, abs_goRound_sub_le _, abs_goRound_sub_le _⟩
  unfold clampDest
  rw [if_neg (by rw [h]; exact Bool.false_ne_true)]
  exact ensureInside_mem V1.margin ps (v2p (ps.closestPt (p2v dest)))

/-- Witness for the amended C9 theorem at the concrete instance. -/
theorem clampDest_rounds_and_nudges_witness :
    (isIntQ (v2p (c9PS.closestPt (p2v ⟨5, 5⟩))).x ∧
      isIntQ (v2p (c9PS.closestPt (p2v ⟨5, 5⟩))).y) ∧
    (clampDest V1.margin c9PS ⟨5, 5⟩ = v2p (c9PS.closestPt (p2v ⟨5, 5⟩)) ∨
      ∃ d ∈ probeOffsets, clampDest V1.margin c9PS ⟨5, 5⟩ =
        (v2p (c9PS.closestPt (p2v ⟨5, 5⟩))).add
          ⟨(d.1 : ℚ) * V1.margin, (d.2 : ℚ) * V1.margin⟩) ∧
    |(v2p (c9PS.closestPt (p2v ⟨5, 5⟩))).x - (c9PS.closestPt (p2v ⟨5, 5⟩)).x| ≤ 1/2 ∧
    |(v2p (c9PS.closestPt (p2v ⟨5, 5⟩))).y - (c9PS.closestPt (p2v ⟨5, 5⟩)).y| ≤ 1/2 :=
  clampDest_rounds_and_nudges c9PS ⟨5, 5⟩ c9_contains_dest_false

/-- Membership in a link update. -/
theorem mem_link_iff (g : graph) (a b x y : Point) :
    x ∈ link g a b y ↔ x ∈ g y ∨ (y = a ∧ x = b) := by
  unfold link
  by_cases h : y = a
  · subst h
    simp
  · simp [h]

/-- Index bound from an indexed lookup. -/
theorem getElem?_some_lt {α : Type} (l : List α) (i : Nat) (a : α)
    (h : l[i]? = some a) : i < l.length := by
  by_contra hc
  push_neg at hc
  rw [List.getElem?_eq_none hc] at h
  cases h

/-- Membership after the inner loop of the full visibility graph
build: edges from the fixed source a to every sighted partner. -/
theorem mem_visFoldInner (ps : PolygonSet) (i : Nat) (a : Point)
    (L : List (Nat × Point)) (g0 : graph) (x y : Point) :
    x ∈ (L.foldl (fun vis jb =>
        if i ≠ jb.1 ∧ inLineOfSight ps (p2v a) (p2v jb.2) = true
        then link vis a jb.2 else vis) g0) y ↔
      x ∈ g0 y ∨ (y = a ∧ ∃ jb ∈ L, i ≠ jb.1 ∧
        inLineOfSight ps (p2v a) (p2v jb.2) = true ∧ x = jb.2) := by
  induction L generalizing g0 with
  | nil => simp
  | cons jb rest ih =>
    rw [List.foldl_cons]
    by_cases hc : i ≠ jb.1 ∧ inLineOfSight ps (p2v a) (p2v jb.2) = true
    · rw [if_pos hc, ih, mem_link_iff]
      simp only [List.exists_mem_cons_iff]
      tauto
    · rw [if_neg hc, ih]
      simp only [List.exists_mem_cons_iff]
      tauto

/-- Membership after the outer loop of the full visibility graph
build. -/
theorem mem_visFoldOuter (ps : PolygonSet) (E : List (Nat × Point))
    (L : List (Nat × Point)) (g0 : graph) (x y : Point) :
    x ∈ (L.foldl (fun vis ia =>
        E.foldl (fun vis jb =>
          if ia.1 ≠ jb.1 ∧ inLineOfSight ps (p2v ia.2) (p2v jb.2) = true
          then link vis ia.2 jb.2 else vis) vis) g0) y ↔
      x ∈ g0 y ∨ ∃ ia ∈ L, y = ia.2 ∧ ∃ jb ∈ E, ia.1 ≠ jb.1 ∧
        inLineOfSight ps (p2v ia.2) (p2v jb.2) = true ∧ x = jb.2 := by
  induction L generalizing g0 with
  | nil => simp
  | cons ia rest ih =>
    rw [List.foldl_cons, ih, mem_visFoldInner]
    simp only [List.exists_mem_cons_iff]
    rw [or_assoc]

/-- Membership in the full visibility graph build: an edge per ordered
pair of distinct indices whose points are in line of sight. -/
theorem mem_visibilityGraph (ps : PolygonSet) (pts : List Point) (x y : Point) :
    x ∈ visibilityGraph ps pts y ↔
      ∃ (i j : Nat), pts[i]? = some y ∧ pts[j]? = some x ∧ i ≠ j ∧
        inLineOfSight ps (p2v y) (p2v x) = true := by
  unfold visibilityGraph
  rw [mem_visFoldOuter]
  simp only [emptyGraph, List.not_mem_nil, false_or]
  constructor
  · rintro ⟨ia, hia, hy, jb, hjb, hne, hs, hx⟩
    subst hy
    subst hx
    rw [List.mem_enum_iff_getElem?] at hia hjb
    exact ⟨ia.1, jb.1, hia, hjb, hne, hs⟩
  · rintro ⟨i, j, hi, hj, hne, hs⟩
    refine ⟨(i, y), List.mem_enum_iff_getElem?.mpr hi, rfl,
      (j, x), List.mem_enum_iff_getElem?.mpr hj, hne, hs, rfl⟩

/-- Indexed lookup into a list extended with two query points. -/
theorem getElem?_append_pair (C : List Point) (s d : Point) (i : Nat) (a : Point) :
    (C ++ [s, d])[i]? = some a ↔
      (i < C.length ∧ C[i]? = some a) ∨ (i = C.length ∧ a = s) ∨
        (i = C.length + 1 ∧ a = d) := by
  by_cases h : i < C.length
  · rw [List.getElem?_append_left h]
    constructor
    · intro ha
      exact Or.inl ⟨h, ha⟩
    · rintro (⟨_, ha⟩ | ⟨he, _⟩ | ⟨he, _⟩)
      · exact ha
      · omega
      · omega
  · push_neg at h
    rw [List.getElem?_append_right h]
    rcases hik : i - C.length with _ | k
    · simp only [List.getElem?_cons_zero, Option.some.injEq]
      constructor
      · intro ha
        exact Or.inr (Or.inl ⟨by omega, ha.symm⟩)
      · rintro (⟨hlt, _⟩ | ⟨_, ha⟩ | ⟨he, _⟩)
        · omega
        · exact ha.symm
        · omega
    · rcases k with _ | k2
      · simp only [List.getElem?_cons_succ, List.getElem?_cons_zero, Option.some.injEq]
        constructor
        · intro ha
          exact Or.inr (Or.inr ⟨by omega, ha.symm⟩)
        · rintro (⟨hlt, _⟩ | ⟨he, _⟩ | ⟨_, ha⟩)
          · omega
          · omega
          · exact ha.symm
      · simp only [List.getElem?_cons_succ, List.getElem?_nil]
        constructor
        · intro ha
          cases ha
        · rintro (⟨hlt, _⟩ | ⟨he, _⟩ | ⟨he, _⟩) <;> omega

/-- Membership after one step of a prepare extension loop. -/
theorem mem_prepStep (ps : PolygonSet) (c : Point) (vis : graph) (b x y : Point) :
    x ∈ V2.prepStep ps c vis b y ↔
      x ∈ vis y ∨
        (y = c ∧ b ≠ c ∧ inLineOfSight ps (p2v c) (p2v b) = true ∧ x = b) ∨
        (y = b ∧ b ≠ c ∧ inLineOfSight ps (p2v b) (p2v c) = true ∧ x = c) := by
  simp only [V2.prepStep]
  by_cases h1 : b ≠ c ∧ inLineOfSight ps (p2v c) (p2v b) = true <;>
    by_cases h2 : b ≠ c ∧ inLineOfSight ps (p2v b) (p2v c) = true
  · rw [if_pos h2, if_pos h1, mem_link_iff, mem_link_iff]
    constructor
    · rintro ((hv | ⟨hyc, hxb⟩) | ⟨hyb, hxc⟩)
      · exact Or.inl hv
      · exact Or.inr (Or.inl ⟨hyc, h1.1, h1.2, hxb⟩)
      · exact Or.inr (Or.inr ⟨hyb, h2.1, h2.2, hxc⟩)
    · rintro (hv | ⟨hyc, _, _, hxb⟩ | ⟨hyb, _, _, hxc⟩)
      · exact Or.inl (Or.inl hv)
      · exact Or.inl (Or.inr ⟨hyc, hxb⟩)
      · exact Or.inr ⟨hyb, hxc⟩
  · rw [if_neg h2, if_pos h1, mem_link_iff]
    constructor
    · rintro (hv | ⟨hyc, hxb⟩)
      · exact Or.inl hv
      · exact Or.inr (Or.inl ⟨hyc, h1.1, h1.2, hxb⟩)
    · rintro (hv | ⟨hyc, _, _, hxb⟩ | ⟨hyb, hbc, hsi, hxc⟩)
      · exact Or.inl hv
      · exact Or.inr ⟨hyc, hxb⟩
      · exact absurd ⟨hbc, hsi⟩ h2
  · rw [if_pos h2, if_neg h1, mem_link_iff]
    constructor
    · rintro (hv | ⟨hyb, hxc⟩)
      · exact Or.inl hv
      · exact Or.inr (Or.inr ⟨hyb, h2.1, h2.2, hxc⟩)
    · rintro (hv | ⟨hyc, hbc, hsi, hxb⟩ | ⟨hyb, _, _, hxc⟩)
      · exact Or.inl hv
      · exact absurd ⟨hbc, hsi⟩ h1
      · exact Or.inr ⟨hyb, hxc⟩
  · rw [if_neg h2, if_neg h1]
    constructor
    · exact Or.inl
    · rintro (hv | ⟨hyc, hbc, hsi, hxb⟩ | ⟨hyb, hbc, hsi, hxc⟩)
      · exact hv
      · exact absurd ⟨hbc, hsi⟩ h1
      · exact absurd ⟨hbc, hsi⟩ h2

/-- Membership after one extension loop of prepareVisibilityGraph:
edges from the query point c to sighted partners and back. -/
theorem mem_prepLoop (ps : PolygonSet) (c : Point) (L : List Point)
    (g0 : graph) (x y : Point) :
    x ∈ (L.foldl (V2.prepStep ps c) g0) y ↔
      x ∈ g0 y ∨
        (y = c ∧ ∃ b ∈ L, b ≠ c ∧ inLineOfSight ps (p2v c) (p2v b) = true ∧ x = b) ∨
        (∃ b ∈ L, y = b ∧ b ≠ c ∧ inLineOfSight ps (p2v b) (p2v c) = true ∧ x = c) := by
  induction L generalizing g0 with
  | nil => simp
  | cons b rest ih =>
    rw [List.foldl_cons, ih, mem_prepStep]
    simp only [List.exists_mem_cons_iff]
    generalize (∃ b ∈ rest, b ≠ c ∧ inLineOfSight ps (p2v c) (p2v b) = true ∧ x = b) = R1
    generalize (∃ b ∈ rest, y = b ∧ b ≠ c ∧
      inLineOfSight ps (p2v b) (p2v c) = true ∧ x = c) = R2
    tauto

/-- Membership in the incrementally extended visibility graph: the
base edges plus the start and dest extension edges plus the final
start-dest block. -/
theorem mem_prepare (ps : PolygonSet) (s d x y : Point) :
    x ∈ V2.prepareVisibilityGraph (V2.NewPathfinder ps) s d y ↔
      x ∈ visibilityGraph ps (concaveVertices ps) y ∨
      (y = s ∧ ∃ b ∈ concaveVertices ps ++ [d], b ≠ s ∧
        inLineOfSight ps (p2v s) (p2v b) = true ∧ x = b) ∨
      (∃ b ∈ concaveVertices ps ++ [d], y = b ∧ b ≠ s ∧
        inLineOfSight ps (p2v b) (p2v s) = true ∧ x = s) ∨
      (y = d ∧ ∃ b ∈ concaveVertices ps ++ [s], b ≠ d ∧
        inLineOfSight ps (p2v d) (p2v b) = true ∧ x = b) ∨
      (∃ b ∈ concaveVertices ps ++ [s], y = b ∧ b ≠ d ∧
        inLineOfSight ps (p2v b) (p2v d) = true ∧ x = d) ∨
      (inLineOfSight ps (p2v s) (p2v d) = true ∧
        ((y = s ∧ x = d) ∨ (y = d ∧ x = s))) := by
  unfold V2.prepareVisibilityGraph
  dsimp only [V2.NewPathfinder, V2.copyGraph]
  by_cases hf : inLineOfSight ps (p2v s) (p2v d) = true
  · rw [if_pos hf, mem_link_iff, mem_link_iff, mem_prepLoop, mem_prepLoop]
    generalize (∃ b ∈ concaveVertices ps ++ [d], b ≠ s ∧
      inLineOfSight ps (p2v s) (p2v b) = true ∧ x = b) = A1
    generalize (∃ b ∈ concaveVertices ps ++ [d], y = b ∧ b ≠ s ∧
      inLineOfSight ps (p2v b) (p2v s) = true ∧ x = s) = A2
    generalize (∃ b ∈ concaveVertices ps ++ [s], b ≠ d ∧
      inLineOfSight ps (p2v d) (p2v b) = true ∧ x = b) = A3
    generalize (∃ b ∈ concaveVertices ps ++ [s], y = b ∧ b ≠ d ∧
      inLineOfSight ps (p2v b) (p2v d) = true ∧ x = d) = A4
    tauto
  · rw [if_neg hf, mem_prepLoop, mem_prepLoop]
    generalize (∃ b ∈ concaveVertices ps ++ [d], b ≠ s ∧
      inLineOfSight ps (p2v s) (p2v b) = true ∧ x = b) = A1
    generalize (∃ b ∈ concaveVertices ps ++ [d], y = b ∧ b ≠ s ∧
      inLineOfSight ps (p2v b) (p2v s) = true ∧ x = s) = A2
    generalize (∃ b ∈ concaveVertices ps ++ [s], b ≠ d ∧
      inLineOfSight ps (p2v d) (p2v b) = true ∧ x = b) = A3
    generalize (∃ b ∈ concaveVertices ps ++ [s], y = b ∧ b ≠ d ∧
      inLineOfSight ps (p2v b) (p2v d) = true ∧ x = d) = A4
    tauto

/-- C6 amended: provided line of sight is irreflexive at start and
dest and symmetric between them, the incrementally extended graph and
the full rebuild over the reflex vertices plus start and dest contain
exactly the same edges (same adjacency membership); as adjacency lists
they may differ by duplicated and reordered entries. -/
theorem prepare_eq_rebuild_mem (ps : PolygonSet) (s d : Point)
    (hss : inLineOfSight ps (p2v s) (p2v s) = false)
    (hdd : inLineOfSight ps (p2v d) (p2v d) = false)
    (hsym : inLineOfSight ps (p2v s) (p2v d) = inLineOfSight ps (p2v d) (p2v s)) :
    ∀ a x : Point,
      x ∈ V2.prepareVisibilityGraph (V2.NewPathfinder ps) s d a ↔
        x ∈ visibilityGraph ps (concaveVertices ps ++ [s, d]) a := by
  intro a x
  rw [mem_prepare, mem_visibilityGraph, mem_visibilityGraph]
  constructor
  · rintro (hbase | ⟨has, b, hb, hbs, hsight, hxb⟩ | ⟨b, hb, hab, hbs, hsight, hxs⟩ |
      ⟨had, b, hb, hbd, hsight, hxb⟩ | ⟨b, hb, hab, hbd, hsight, hxd⟩ |
      ⟨hsd, (⟨has, hxd⟩ | ⟨had, hxs⟩)⟩)
    · obtain ⟨i, j, hi, hj, hne, hs2⟩ := hbase
      exact ⟨i, j,
        by rw [List.getElem?_append_left (getElem?_some_lt _ i a hi)]; exact hi,
        by rw [List.getElem?_append_left (getElem?_some_lt _ j x hj)]; exact hj,
        hne, hs2⟩
    · rcases List.mem_append.mp hb with hbC | hbd2
      · obtain ⟨j, hj⟩ := List.getElem?_of_mem hbC
        have hjlt := getElem?_some_lt _ j b hj
        refine ⟨(concaveVertices ps).length, j, ?_, ?_, by omega,
          by rw [has, hxb]; exact hsight⟩
        · rw [getElem?_append_pair]
          exact Or.inr (Or.inl ⟨rfl, has⟩)
        · rw [List.getElem?_append_left hjlt, hxb]
          exact hj
      · have hbd3 : b = d := by simpa using hbd2
        refine ⟨(concaveVertices ps).length, (concaveVertices ps).length + 1,
          ?_, ?_, by omega, by rw [has, hxb]; exact hsight⟩
        · rw [getElem?_append_pair]
          exact Or.inr (Or.inl ⟨rfl, has⟩)
        · rw [getElem?_append_pair]
          exact Or.inr (Or.inr ⟨rfl, by rw [hxb, hbd3]⟩)
    · rcases List.mem_append.mp hb with hbC | hbd2
      · obtain ⟨i, hi⟩ := List.getElem?_of_mem hbC
        have hilt := getElem?_some_lt _ i b hi
        refine ⟨i, (concaveVertices ps).length, ?_, ?_, by omega,
          by rw [hab, hxs]; exact hsight⟩
        · rw [List.getElem?_append_left hilt, hab]
          exact hi
        · rw [getElem?_append_pair]
          exact Or.inr (Or.inl ⟨rfl, hxs⟩)
      · have hbd3 : b = d := by simpa using hbd2
        refine ⟨(concaveVertices ps).length + 1, (concaveVertices ps).length,
          ?_, ?_, by omega, by rw [hab, hxs]; exact hsight⟩
        · rw [getElem?_append_pair]
          exact Or.inr (Or.inr ⟨rfl, by rw [hab, hbd3]⟩)
        · rw [getElem?_append_pair]
          exact Or.inr (Or.inl ⟨rfl, hxs⟩)
    · rcases List.mem_append.mp hb with hbC | hbs2
      · obtain ⟨j, hj⟩ := List.getElem?_of_mem hbC
        have hjlt := getElem?_some_lt _ j b hj
        refine ⟨(concaveVertices ps).length + 1, j, ?_, ?_, by omega,
          by rw [had, hxb]; exact hsight⟩
        · rw [getElem?_append_pair]
          exact Or.inr (Or.inr ⟨rfl, had⟩)
        · rw [List.getElem?_append_left hjlt, hxb]
          exact hj
      · have hbs3 : b = s := by simpa using hbs2
        refine ⟨(concaveVertices ps).length + 1, (concaveVertices ps).length,
          ?_, ?_, by omega, by rw [had, hxb]; exact hsight⟩
        · rw [getElem?_append_pair]
          exact Or.inr (Or.inr ⟨rfl, had⟩)
        · rw [getElem?_append_pair]
          exact Or.inr (Or.inl ⟨rfl, by rw [hxb, hbs3]⟩)
    · rcases List.mem_append.mp hb with hbC | hbs2
      · obtain ⟨i, hi⟩ := List.getElem?_of_mem hbC
        have hilt := getElem?_some_lt _ i b hi
        refine ⟨i, (concaveVertices ps).length + 1, ?_, ?_, by omega,
          by rw [hab, hxd]; exact hsight⟩
        · rw [List.getElem?_append_left hilt, hab]
          exact hi
        · rw [getElem?_append_pair]
          exact Or.inr (Or.inr ⟨rfl, hxd⟩)
      · have hbs3 : b = s := by simpa using hbs2
        refine ⟨(concaveVertices ps).length, (concaveVertices ps).length + 1,
          ?_, ?_, by omega, by rw [hab, hxd]; exact hsight⟩
        · rw [getElem?_append_pair]
          exact Or.inr (Or.inl ⟨rfl, by rw [hab, hbs3]⟩)
        · rw [getElem?_append_pair]
          exact Or.inr (Or.inr ⟨rfl, hxd⟩)
    · refine ⟨(concaveVertices ps).length, (concaveVertices ps).length + 1,
        ?_, ?_, by omega, by rw [has, hxd]; exact hsd⟩
      · rw [getElem?_append_pair]
        exact Or.inr (Or.inl ⟨rfl, has⟩)
      · rw [getElem?_append_pair]
        exact Or.inr (Or.inr ⟨rfl, hxd⟩)
    · refine ⟨(concaveVertices ps).length + 1, (concaveVertices ps).length,
        ?_, ?_, by omega, by rw [had, hxs, ← hsym]; exact hsd⟩
      · rw [getElem?_append_pair]
        exact Or.inr (Or.inr ⟨rfl, had⟩)
      · rw [getElem?_append_pair]
        exact Or.inr (Or.inl ⟨rfl, hxs⟩)
  · rintro ⟨i, j, hi, hj, hne, hsight⟩
    rw [getElem?_append_pair] at hi hj
    rcases hi with ⟨hilt, hiC⟩ | ⟨hie, hia⟩ | ⟨hie, hia⟩ <;>
      rcases hj with ⟨hjlt, hjC⟩ | ⟨hje, hjx⟩ | ⟨hje, hjx⟩
    · exact Or.inl ⟨i, j, hiC, hjC, hne, hsight⟩
    · have hsight2 : inLineOfSight ps (p2v a) (p2v s) = true := by
        rw [← hjx]; exact hsight
      have hane : a ≠ s := by
        intro hcontra
        rw [hcontra, hss] at hsight2
        cases hsight2
      exact Or.inr (Or.inr (Or.inl ⟨a,
        List.mem_append_left _ (List.getElem?_mem hiC), rfl, hane, hsight2, hjx⟩))
    · have hsight2 : inLineOfSight ps (p2v a) (p2v d) = true := by
        rw [← hjx]; exact hsight
      have hane : a ≠ d := by
        intro hcontra
        rw [hcontra, hdd] at hsight2
        cases hsight2
      exact Or.inr (Or.inr (Or.inr (Or.inr (Or.inl ⟨a,
        List.mem_append_left _ (List.getElem?_mem hiC), rfl, hane, hsight2, hjx⟩))))
    · have hsight2 : inLineOfSight ps (p2v s) (p2v x) = true := by
        rw [← hia]; exact hsight
      have hxne : x ≠ s := by
        intro hcontra
        rw [hcontra, hss] at hsight2
        cases hsight2
      exact Or.inr (Or.inl ⟨hia, x,
        List.mem_append_left _ (List.getElem?_mem hjC), hxne, hsight2, rfl⟩)
    · omega
    · have hsd : inLineOfSight ps (p2v s) (p2v d) = true := by
        rw [← hia, ← hjx]; exact hsight
      exact Or.inr (Or.inr (Or.inr (Or.inr (Or.inr ⟨hsd, Or.inl ⟨hia, hjx⟩⟩))))
    · have hsight2 : inLineOfSight ps (p2v d) (p2v x) = true := by
        rw [← hia]; exact hsight
      have hxne : x ≠ d := by
        intro hcontra
        rw [hcontra, hdd] at hsight2
        cases hsight2
      exact Or.inr (Or.inr (Or.inr (Or.inl ⟨hia, x,
        List.mem_append_left _ (List.getElem?_mem hjC), hxne, hsight2, rfl⟩)))
    · have hds : inLineOfSight ps (p2v s) (p2v d) = true := by
        rw [hsym, ← hia, ← hjx]; exact hsight
      exact Or.inr (Or.inr (Or.inr (Or.inr (Or.inr ⟨hds, Or.inr ⟨hia, hjx⟩⟩))))
    · omega

/-- C6 counterexample: with no polygons and everything in sight, the
extended graph links start and dest three times over while the rebuild
links them once, so the two graphs are not equal. -/
theorem prepare_ne_rebuild_cex :
    V2.prepareVisibilityGraph (V2.NewPathfinder c6PS) ⟨0, 0⟩ ⟨2, 0⟩ ≠
      visibilityGraph c6PS (concaveVertices c6PS ++ [⟨0, 0⟩, ⟨2, 0⟩]) := by
  intro h
  have h2 := congrFun h ⟨0, 0⟩
  have hL : V2.prepareVisibilityGraph (V2.NewPathfinder c6PS) ⟨0, 0⟩ ⟨2, 0⟩ ⟨0, 0⟩ =
      [⟨2, 0⟩, ⟨2, 0⟩, ⟨2, 0⟩] := rfl
  have hR : visibilityGraph c6PS (concaveVertices c6PS ++ [⟨0, 0⟩, ⟨2, 0⟩]) ⟨0, 0⟩ =
      [⟨2, 0⟩] := rfl
  rw [hL, hR] at h2
  simp at h2

/-- Line-of-sight evaluations of the C6 witness instance. -/
theorem c6w_ss : inLineOfSight c6wPS (p2v ⟨0, 0⟩) (p2v ⟨0, 0⟩) = false := by
  apply decide_eq_false
  intro h
  rw [show LineSeg.middle ⟨p2v ⟨0, 0⟩, p2v ⟨0, 0⟩⟩ =
    (⟨(0 + 0)/2, (0 + 0)/2⟩ : Vec2) from rfl, Vec2.mk.injEq] at h
  have := h.1
  norm_num at this

/-- Line-of-sight evaluations of the C6 witness instance. -/
theorem c6w_dd : inLineOfSight c6wPS (p2v ⟨2, 0⟩) (p2v ⟨2, 0⟩) = false := by
  apply decide_eq_false
  intro h
  rw [show LineSeg.middle ⟨p2v ⟨2, 0⟩, p2v ⟨2, 0⟩⟩ =
    (⟨(2 + 2)/2, (0 + 0)/2⟩ : Vec2) from rfl, Vec2.mk.injEq] at h
  have := h.1
  norm_num at this

/-- Line-of-sight evaluations of the C6 witness instance. -/
theorem c6w_sym :
    inLineOfSight c6wPS (p2v ⟨0, 0⟩) (p2v ⟨2, 0⟩) =
      inLineOfSight c6wPS (p2v ⟨2, 0⟩) (p2v ⟨0, 0⟩) := by
  have h1 : inLineOfSight c6wPS (p2v ⟨0, 0⟩) (p2v ⟨2, 0⟩) = true := by
    apply decide_eq_true
    rw [show LineSeg.middle ⟨p2v ⟨0, 0⟩, p2v ⟨2, 0⟩⟩ =
      (⟨(0 + 2)/2, (0 + 0)/2⟩ : Vec2) from rfl, Vec2.mk.injEq]
    norm_num
  have h2 : inLineOfSight c6wPS (p2v ⟨2, 0⟩) (p2v ⟨0, 0⟩) = true := by
    apply decide_eq_true
    rw [show LineSeg.middle ⟨p2v ⟨2, 0⟩, p2v ⟨0, 0⟩⟩ =
      (⟨(2 + 0)/2, (0 + 0)/2⟩ : Vec2) from rfl, Vec2.mk.injEq]
    norm_num
  rw [h1, h2]

/-- Witness for the amended C6 theorem at the concrete instance. -/
theorem prepare_eq_rebuild_mem_witness :
    (⟨2, 0⟩ : Point) ∈
        V2.prepareVisibilityGraph (V2.NewPathfinder c6wPS) ⟨0, 0⟩ ⟨2, 0⟩ ⟨0, 0⟩ ↔
      (⟨2, 0⟩ : Point) ∈
        visibilityGraph c6wPS (concaveVertices c6wPS ++ [⟨0, 0⟩, ⟨2, 0⟩]) ⟨0, 0⟩ :=
  prepare_eq_rebuild_mem c6wPS ⟨0, 0⟩ ⟨2, 0⟩ c6w_ss c6w_dd c6w_sym ⟨0, 0⟩ ⟨2, 0⟩

/-- The origin lies in the degenerate boundary. -/
theorem containsPt_b0 : rect.containsPt b0 ⟨0, 0⟩ = true := by
  apply decide_eq_true
  norm_num [b0]

/-- All four quadrants of the degenerate boundary equal it. -/
theorem quadrants_b0 : quadrants b0 = (b0, b0, b0, b0) := by
  unfold quadrants
  norm_num [b0]

/-- Inserting the origin into a fresh capacity-1 tree over the
degenerate boundary yields exactly the counterexample state. -/
theorem insert_fresh_b0 (m : Nat) :
    quadTree.insert (m + 1) (newQuadTree b0 1) ⟨0, 0⟩ = some (qt0, true) := by
  show quadTree.insert (m + 1) (.mk b0 1 [] false none none none none) ⟨0, 0⟩ = _
  simp only [quadTree.insert]
  rw [if_neg (by simp [containsPt_b0])]
  rw [if_pos (by simp)]
  simp [qt0]

/-- Inserting the origin into the counterexample state runs out of any
amount of fuel: the Go original recurses forever. -/
theorem qt0_insert_none : ∀ n, quadTree.insert n qt0 ⟨0, 0⟩ = none := by
  intro n
  induction n with
  | zero => rfl
  | succ m ih =>
    cases m with
    | zero =>
      simp only [qt0, quadTree.insert]
      rw [if_neg (by simp [containsPt_b0])]
      rw [if_neg (by simp)]
      rfl
    | succ m' =>
      conv_lhs => rw [show qt0 = .mk b0 1 [⟨0, 0⟩] false none none none none from rfl]
      simp only [quadTree.insert]
      rw [if_neg (by simp [containsPt_b0])]
      rw [if_neg (by simp)]
      rw [quadrants_b0]
      simp only [List.foldlM_cons, List.foldlM_nil]
      rw [show (newQuadTree ((b0, b0, b0, b0).1) 1) = newQuadTree b0 1 from rfl]
      simp only [insert_fresh_b0 m', Option.bind_eq_bind, Option.pure_def,
        Option.some_bind, ih, Option.none_bind]

/-- C10 counterexample: the state qt0 is reachable by a single insert
into a fresh tree, yet inserting the coincident origin point into it
never terminates, refuting the termination half of the claim. -/
theorem insert_nontermination_cex :
    ReachableQT qt0 ∧ ¬ insertTerminates qt0 ⟨0, 0⟩ := by
  constructor
  · exact ReachableQT.step (ReachableQT.base b0 1) (insert_fresh_b0 0)
  · rintro ⟨n, hn⟩
    rw [qt0_insert_none n] at hn
    simp at hn

/-- Well-formedness ignores capacity and stored points. -/
theorem wfQ_ignores (b : rect) (cap cap' : Nat) (pts pts' : List Point) (dv : Bool)
    (nw ne sw se : Option quadTree) :
    wfQ (.mk b cap pts dv nw ne sw se) = wfQ (.mk b cap' pts' dv nw ne sw se) := by
  unfold wfQ
  rfl

/-- The four quadrants cover their rectangle. -/
theorem quadrants_cover (b : rect) (p : Point) (h : rect.containsPt b p = true) :
    rect.containsPt (quadrants b).1 p = true ∨
    rect.containsPt (quadrants b).2.1 p = true ∨
    rect.containsPt (quadrants b).2.2.1 p = true ∨
    rect.containsPt (quadrants b).2.2.2 p = true := by
  unfold rect.containsPt at h
  rw [decide_eq_true_eq] at h
  obtain ⟨h1, h2, h3, h4⟩ := h
  unfold quadrants rect.containsPt
  dsimp only
  by_cases hx : p.x ≤ (b.rmin.x + b.rmax.x)/2 <;>
    by_cases hy : p.y ≤ (b.rmin.y + b.rmax.y)/2
  · exact Or.inl (decide_eq_true ⟨h1, hx, h3, hy⟩)
  · exact Or.inr (Or.inr (Or.inl
      (decide_eq_true ⟨h1, hx, by linarith [not_le.mp hy], h4⟩)))
  · exact Or.inr (Or.inl
      (decide_eq_true ⟨by linarith [not_le.mp hx], h2, h3, hy⟩))
  · exact Or.inr (Or.inr (Or.inr
      (decide_eq_true ⟨by linarith [not_le.mp hx], h2, by linarith [not_le.mp hy], h4⟩)))

/-- Fresh nodes are well formed. -/
theorem wfQ_newQuadTree (b : rect) (c : Nat) : wfQ (newQuadTree b c) = true := rfl

/-- Destructuring of a successful monadic bind over Option. -/
theorem bind_some_ex {α β : Type} (x : Option α) (f : α → Option β) (b : β)
    (h : (x >>= f) = some b) : ∃ a, x = some a ∧ f a = some b := by
  rw [show (x >>= f) = x.bind f from rfl] at h
  exact Option.bind_eq_some.mp h

/-- The subdivision redistribution fold preserves the boundaries and
well-formedness of the four children. -/
theorem foldlM_insert_pres (n : Nat)
    (hpres : ∀ t p t' r, quadTree.insert n t p = some (t', r) →
      t'.boundary = t.boundary ∧ (wfQ t = true → wfQ t' = true))
    (pts : List Point) :
    ∀ (cs r : quadTree × quadTree × quadTree × quadTree),
      pts.foldlM (fun cs q => do
        let (c1, _) ← quadTree.insert n cs.1 q
        let (c2, _) ← quadTree.insert n cs.2.1 q
        let (c3, _) ← quadTree.insert n cs.2.2.1 q
        let (c4, _) ← quadTree.insert n cs.2.2.2 q
        pure (c1, c2, c3, c4)) cs = some r →
      (r.1.boundary = cs.1.boundary ∧ r.2.1.boundary = cs.2.1.boundary ∧
        r.2.2.1.boundary = cs.2.2.1.boundary ∧ r.2.2.2.boundary = cs.2.2.2.boundary) ∧
      ((wfQ cs.1 = true → wfQ r.1 = true) ∧ (wfQ cs.2.1 = true → wfQ r.2.1 = true) ∧
        (wfQ cs.2.2.1 = true → wfQ r.2.2.1 = true) ∧
        (wfQ cs.2.2.2 = true → wfQ r.2.2.2 = true)) := by
  induction pts with
  | nil =>
    intro cs r h
    simp only [List.foldlM_nil, Option.pure_def, Option.some.injEq] at h
    subst h
    exact ⟨⟨rfl, rfl, rfl, rfl⟩, ⟨id, id, id, id⟩⟩
  | cons q rest ih =>
    intro cs r h
    rw [List.foldlM_cons] at h
    obtain ⟨cs1, hstep, hrest⟩ := bind_some_ex _ _ _ h
    obtain ⟨⟨c1, r1⟩, h1, hstep⟩ := bind_some_ex _ _ _ hstep
    obtain ⟨⟨c2, r2⟩, h2, hstep⟩ := bind_some_ex _ _ _ hstep
    obtain ⟨⟨c3, r3⟩, h3, hstep⟩ := bind_some_ex _ _ _ hstep
    obtain ⟨⟨c4, r4⟩, h4, hstep⟩ := bind_some_ex _ _ _ hstep
    simp only [Option.pure_def, Option.some.injEq] at hstep
    subst hstep
    obtain ⟨hb1, hw1⟩ := hpres _ _ _ _ h1
    obtain ⟨hb2, hw2⟩ := hpres _ _ _ _ h2
    obtain ⟨hb3, hw3⟩ := hpres _ _ _ _ h3
    obtain ⟨hb4, hw4⟩ := hpres _ _ _ _ h4
    obtain ⟨⟨hib1, hib2, hib3, hib4⟩, ⟨hiw1, hiw2, hiw3, hiw4⟩⟩ := ih _ _ hrest
    exact ⟨⟨hib1.trans hb1, hib2.trans hb2, hib3.trans hb3, hib4.trans hb4⟩,
      ⟨fun hw => hiw1 (hw1 hw), fun hw => hiw2 (hw2 hw),
       fun hw => hiw3 (hw3 hw), fun hw => hiw4 (hw4 hw)⟩⟩

/-- Result analysis of the four-child insertion chain of a successful
insert: the result keeps the node boundary, and is well formed when
the children carry the quadrant boundaries and are well formed. -/
theorem insertTail_pres (n : Nat)
    (ih : ∀ t p t' r, quadTree.insert n t p = some (t', r) →
      t'.boundary = t.boundary ∧ (wfQ t = true → wfQ t' = true))
    (b : rect) (cap : Nat) (pts2 : List Point) (p : Point)
    (cnw cne csw cse t' : quadTree) (r : Bool)
    (h : (do
        let (cnw', r1) ← quadTree.insert n cnw p
        if r1 then
          pure (quadTree.mk b cap pts2 true (some cnw') (some cne) (some csw) (some cse), true)
        else do
          let (cne', r2) ← quadTree.insert n cne p
          if r2 then
            pure (quadTree.mk b cap pts2 true (some cnw') (some cne') (some csw) (some cse), true)
          else do
            let (csw', r3) ← quadTree.insert n csw p
            if r3 then
              pure (quadTree.mk b cap pts2 true (some cnw') (some cne') (some csw') (some cse), true)
            else do
              let (cse', r4) ← quadTree.insert n cse p
              pure (quadTree.mk b cap pts2 true
                (some cnw') (some cne') (some csw') (some cse'), r4)) = some (t', r)) :
    t'.boundary = b ∧
      ((cnw.boundary = (quadrants b).1 ∧ cne.boundary = (quadrants b).2.1 ∧
          csw.boundary = (quadrants b).2.2.1 ∧ cse.boundary = (quadrants b).2.2.2) →
        (wfQ cnw = true ∧ wfQ cne = true ∧ wfQ csw = true ∧ wfQ cse = true) →
        wfQ t' = true) := by
  obtain ⟨⟨cnw1, r1⟩, hc1, h⟩ := bind_some_ex _ _ _ h
  obtain ⟨hcb1, hcw1⟩ := ih _ _ _ _ hc1
  dsimp only at h
  split at h
  · simp only [Option.pure_def, Option.some.injEq, Prod.mk.injEq] at h
    obtain ⟨ht, hr⟩ := h
    subst ht
    refine ⟨rfl, fun ⟨hb1, hb2, hb3, hb4⟩ ⟨hw1, hw2, hw3, hw4⟩ => ?_⟩
    simp only [wfQ, Bool.and_eq_true, decide_eq_true_eq]
    exact ⟨⟨⟨⟨⟨⟨⟨hcb1.trans hb1, hb2⟩, hb3⟩, hb4⟩, hcw1 hw1⟩, hw2⟩, hw3⟩, hw4⟩
  · obtain ⟨⟨cne1, r2⟩, hc2, h⟩ := bind_some_ex _ _ _ h
    obtain ⟨hcb2, hcw2⟩ := ih _ _ _ _ hc2
    dsimp only at h
    split at h
    · simp only [Option.pure_def, Option.some.injEq, Prod.mk.injEq] at h
      obtain ⟨ht, hr⟩ := h
      subst ht
      refine ⟨rfl, fun ⟨hb1, hb2, hb3, hb4⟩ ⟨hw1, hw2, hw3, hw4⟩ => ?_⟩
      simp only [wfQ, Bool.and_eq_true, decide_eq_true_eq]
      exact ⟨⟨⟨⟨⟨⟨⟨hcb1.trans hb1, hcb2.trans hb2⟩, hb3⟩, hb4⟩, hcw1 hw1⟩,
        hcw2 hw2⟩, hw3⟩, hw4⟩
    · obtain ⟨⟨csw1, r3⟩, hc3, h⟩ := bind_some_ex _ _ _ h
      obtain ⟨hcb3, hcw3⟩ := ih _ _ _ _ hc3
      dsimp only at h
      split at h
      · simp only [Option.pure_def, Option.some.injEq, Prod.mk.injEq] at h
        obtain ⟨ht, hr⟩ := h
        subst ht
        refine ⟨rfl, fun ⟨hb1, hb2, hb3, hb4⟩ ⟨hw1, hw2, hw3, hw4⟩ => ?_⟩
        simp only [wfQ, Bool.and_eq_true, decide_eq_true_eq]
        exact ⟨⟨⟨⟨⟨⟨⟨hcb1.trans hb1, hcb2.trans hb2⟩, hcb3.trans hb3⟩, hb4⟩,
          hcw1 hw1⟩, hcw2 hw2⟩, hcw3 hw3⟩, hw4⟩
      · obtain ⟨⟨cse1, r4⟩, hc4, h⟩ := bind_some_ex _ _ _ h
        obtain ⟨hcb4, hcw4⟩ := ih _ _ _ _ hc4
        dsimp only at h
        simp only [Option.pure_def, Option.some.injEq, Prod.mk.injEq] at h
        obtain ⟨ht, hr⟩ := h
        subst ht
        refine ⟨rfl, fun ⟨hb1, hb2, hb3, hb4⟩ ⟨hw1, hw2, hw3, hw4⟩ => ?_⟩
        simp only [wfQ, Bool.and_eq_true, decide_eq_true_eq]
        exact ⟨⟨⟨⟨⟨⟨⟨hcb1.trans hb1, hcb2.trans hb2⟩, hcb3.trans hb3⟩,
          hcb4.trans hb4⟩, hcw1 hw1⟩, hcw2 hw2⟩, hcw3 hw3⟩, hcw4 hw4⟩

/-- A successful insert preserves the boundary and well-formedness of
the tree. -/
theorem insert_pres : ∀ (n : Nat) (t : quadTree) (p : Point) (t' : quadTree) (r : Bool),
    quadTree.insert n t p = some (t', r) →
    t'.boundary = t.boundary ∧ (wfQ t = true → wfQ t' = true) := by
  intro n
  induction n with
  | zero =>
    intro t p t' r h
    simp [quadTree.insert] at h
  | succ n ih =>
    intro t p t' r h
    cases t with
    | mk b cap pts dv nw ne sw se =>
    simp only [quadTree.insert] at h
    by_cases h1 : rect.containsPt b p = true
    · rw [if_neg (by simp [h1])] at h
      by_cases h2 : pts.length < cap ∧ dv = false
      · rw [if_pos h2] at h
        simp only [Option.some.injEq, Prod.mk.injEq] at h
        obtain ⟨ht, hr⟩ := h
        subst ht
        refine ⟨rfl, fun hw => ?_⟩
        rw [wfQ_ignores b cap cap (pts ++ [p]) pts dv nw ne sw se]
        exact hw
      · rw [if_neg h2] at h
        cases dv
        · obtain ⟨⟨cnw, cne, csw, cse⟩, hcs, h⟩ := bind_some_ex _ _ _ h
          obtain ⟨⟨hb1, hb2, hb3, hb4⟩, hw1, hw2, hw3, hw4⟩ :=
            foldlM_insert_pres n ih pts _ _ hcs
          obtain ⟨hbt, hwt⟩ := insertTail_pres n ih b cap _ p cnw cne csw cse t' r h
          exact ⟨hbt, fun _ => hwt
            ⟨hb1.trans rfl, hb2.trans rfl, hb3.trans rfl, hb4.trans rfl⟩
            ⟨hw1 rfl, hw2 rfl, hw3 rfl, hw4 rfl⟩⟩
        · cases nw with
          | none => simp at h
          | some a =>
          cases ne with
          | none => simp at h
          | some c =>
          cases sw with
          | none => simp at h
          | some d =>
          cases se with
          | none => simp at h
          | some e =>
          obtain ⟨y, hy, h⟩ := bind_some_ex _ _ _ h
          simp only [Option.some.injEq] at hy
          subst hy
          obtain ⟨hbt, hwt⟩ := insertTail_pres n ih b cap _ p a c d e t' r h
          refine ⟨hbt, fun hwf => ?_⟩
          simp only [wfQ, Bool.and_eq_true, decide_eq_true_eq] at hwf
          obtain ⟨⟨⟨⟨⟨⟨⟨hba, hbc⟩, hbd⟩, hbe⟩, hwa⟩, hwc⟩, hwd⟩, hwe⟩ := hwf
          exact hwt ⟨hba, hbc, hbd, hbe⟩ ⟨hwa, hwc, hwd, hwe⟩
    · rw [if_pos h1] at h
      simp only [Option.some.injEq, Prod.mk.injEq] at h
      obtain ⟨ht, hr⟩ := h
      subst ht
      exact ⟨rfl, id⟩

/-- Result value of the four-child insertion chain: when the point is
inside the parent boundary and the children are the well-formed
quadrant children, the chain reports a successful insertion. -/
theorem insertTail_true (n : Nat)
    (ih : ∀ t p t' r, quadTree.insert n t p = some (t', r) → wfQ t = true →
      (r = true ↔ rect.containsPt t.boundary p = true))
    (b : rect) (cap : Nat) (pts2 : List Point) (p : Point)
    (cnw cne csw cse t' : quadTree) (r : Bool)
    (hb1 : cnw.boundary = (quadrants b).1)
    (hb2 : cne.boundary = (quadrants b).2.1)
    (hb3 : csw.boundary = (quadrants b).2.2.1)
    (hb4 : cse.boundary = (quadrants b).2.2.2)
    (hw1 : wfQ cnw = true) (hw2 : wfQ cne = true)
    (hw3 : wfQ csw = true) (hw4 : wfQ cse = true)
    (hp : rect.containsPt b p = true)
    (h : (do
        let (cnw', r1) ← quadTree.insert n cnw p
        if r1 then
          pure (quadTree.mk b cap pts2 true (some cnw') (some cne) (some csw) (some cse), true)
        else do
          let (cne', r2) ← quadTree.insert n cne p
          if r2 then
            pure (quadTree.mk b cap pts2 true (some cnw') (some cne') (some csw) (some cse), true)
          else do
            let (csw', r3) ← quadTree.insert n csw p
            if r3 then
              pure (quadTree.mk b cap pts2 true (some cnw') (some cne') (some csw') (some cse), true)
            else do
              let (cse', r4) ← quadTree.insert n cse p
              pure (quadTree.mk b cap pts2 true
                (some cnw') (some cne') (some csw') (some cse'), r4)) = some (t', r)) :
    r = true := by
  obtain ⟨⟨cnw1, r1⟩, hc1, h⟩ := bind_some_ex _ _ _ h
  have hi1 := ih _ _ _ _ hc1 hw1
  dsimp only at h
  split at h
  · simp only [Option.pure_def, Option.some.injEq, Prod.mk.injEq] at h
    exact h.2.symm
  · rename_i hr1
    have hn1 : ¬ rect.containsPt (quadrants b).1 p = true := fun hc =>
      hr1 (hi1.mpr (by rw [hb1]; exact hc))
    obtain ⟨⟨cne1, r2⟩, hc2, h⟩ := bind_some_ex _ _ _ h
    have hi2 := ih _ _ _ _ hc2 hw2
    dsimp only at h
    split at h
    · simp only [Option.pure_def, Option.some.injEq, Prod.mk.injEq] at h
      exact h.2.symm
    · rename_i hr2
      have hn2 : ¬ rect.containsPt (quadrants b).2.1 p = true := fun hc =>
        hr2 (hi2.mpr (by rw [hb2]; exact hc))
      obtain ⟨⟨csw1, r3⟩, hc3, h⟩ := bind_some_ex _ _ _ h
      have hi3 := ih _ _ _ _ hc3 hw3
      dsimp only at h
      split at h
      · simp only [Option.pure_def, Option.some.injEq, Prod.mk.injEq] at h
        exact h.2.symm
      · rename_i hr3
        have hn3 : ¬ rect.containsPt (quadrants b).2.2.1 p = true := fun hc =>
          hr3 (hi3.mpr (by rw [hb3]; exact hc))
        obtain ⟨⟨cse1, r4⟩, hc4, h⟩ := bind_some_ex _ _ _ h
        have hi4 := ih _ _ _ _ hc4 hw4
        dsimp only at h
        simp only [Option.pure_def, Option.some.injEq, Prod.mk.injEq] at h
        rcases quadrants_cover b p hp with hq | hq | hq | hq
        · exact absurd hq hn1
        · exact absurd hq hn2
        · exact absurd hq hn3
        · rw [h.2.symm]
          exact hi4.mpr (by rw [hb4]; exact hq)

/-- On well-formed trees a terminating insert reports success exactly
when the point lies within the node boundary. -/
theorem insert_wf_result : ∀ (n : Nat) (t : quadTree) (p : Point) (t' : quadTree) (r : Bool),
    quadTree.insert n t p = some (t', r) → wfQ t = true →
    (r = true ↔ rect.containsPt t.boundary p = true) := by
  intro n
  induction n with
  | zero =>
    intro t p t' r h _
    simp [quadTree.insert] at h
  | succ n ih =>
    intro t p t' r h hwf
    cases t with
    | mk b cap pts dv nw ne sw se =>
    simp only [quadTree.insert] at h
    simp only [quadTree.boundary]
    by_cases h1 : rect.containsPt b p = true
    · rw [if_neg (by simp [h1])] at h
      simp only [h1, iff_true]
      by_cases h2 : pts.length < cap ∧ dv = false
      · rw [if_pos h2] at h
        simp only [Option.some.injEq, Prod.mk.injEq] at h
        exact h.2.symm
      · rw [if_neg h2] at h
        cases dv
        · obtain ⟨⟨cnw, cne, csw, cse⟩, hcs, h⟩ := bind_some_ex _ _ _ h
          obtain ⟨⟨hb1, hb2, hb3, hb4⟩, hw1, hw2, hw3, hw4⟩ :=
            foldlM_insert_pres n (insert_pres n) pts _ _ hcs
          exact insertTail_true n ih b cap _ p cnw cne csw cse t' r
            (hb1.trans rfl) (hb2.trans rfl) (hb3.trans rfl) (hb4.trans rfl)
            (hw1 rfl) (hw2 rfl) (hw3 rfl) (hw4 rfl) h1 h
        · cases nw with
          | none => simp at h
          | some a =>
          cases ne with
          | none => simp at h
          | some c =>
          cases sw with
          | none => simp at h
          | some d =>
          cases se with
          | none => simp at h
          | some e =>
          obtain ⟨y, hy, h⟩ := bind_some_ex _ _ _ h
          simp only [Option.some.injEq] at hy
          subst hy
          simp only [wfQ, Bool.and_eq_true, decide_eq_true_eq] at hwf
          obtain ⟨⟨⟨⟨⟨⟨⟨hba, hbc⟩, hbd⟩, hbe⟩, hwa⟩, hwc⟩, hwd⟩, hwe⟩ := hwf
          exact insertTail_true n ih b cap _ p a c d e t' r
            hba hbc hbd hbe hwa hwc hwd hwe h1 h
    · rw [if_pos h1] at h
      simp only [Option.some.injEq, Prod.mk.injEq] at h
      rw [← h.2]
      simp [h1]

/-- Every reachable quadtree state is well formed. -/
theorem reachable_wf : ∀ {t : quadTree}, ReachableQT t → wfQ t = true := by
  intro t h
  induction h with
  | base b c => exact wfQ_newQuadTree b c
  | step _ hins ih => exact (insert_pres _ _ _ _ _ hins).2 ih

/-- C10 (amended): on every reachable quadtree state, a TERMINATING
insert reports a successful insertion exactly when the point lies
within the tree boundary rectangle; termination itself fails on
reachable states (see the counterexample), so the claim's universal
termination half is dropped and the success guarantee is conditional
on the call returning at all. -/
theorem insert_result_iff_contains (n : Nat) (t : quadTree) (p : Point)
    (t' : quadTree) (r : Bool) (hreach : ReachableQT t)
    (h : quadTree.insert n t p = some (t', r)) :
    (r = true ↔ rect.containsPt t.boundary p = true) :=
  insert_wf_result n t p t' r h (reachable_wf hreach)

/-- Witness for the amended C10 theorem: inserting the origin into a
fresh capacity-1 tree over the degenerate boundary succeeds and the
origin is inside the boundary. -/
theorem insert_result_iff_contains_witness :
    (true = true ↔ rect.containsPt (newQuadTree b0 1).boundary ⟨0, 0⟩ = true) :=
  insert_result_iff_contains 1 (newQuadTree b0 1) ⟨0, 0⟩ qt0 true
    (ReachableQT.base b0 1) (insert_fresh_b0 0)

end Theorems

end Pathfind
